import Mathlib

set_option maxRecDepth 8000

/-!
Verification development for the Anthropic-to-Google local proxy
(`proxy.mjs`).  The JavaScript source is shallowly embedded: JS values are
modelled by `JsVal`, JS objects by ordered association lists (JS objects
preserve insertion order and cannot hold duplicate keys), and the
translation functions of the proxy are translated definition by definition.
Machine numbers that matter here (token budgets, HTTP status codes) are
integers in the source's working range, so they are modelled as `Int`/`Nat`.
-/

/-- A JSON/JS value as the proxy manipulates it.  Objects are ordered
association lists; parsed JSON never holds duplicate keys. -/
inductive JsVal where
  | jnull : JsVal
  | jbool : Bool → JsVal
  | jnum : Int → JsVal
  | jstr : String → JsVal
  | jarr : List JsVal → JsVal
  | jobj : List (String × JsVal) → JsVal
deriving Repr

namespace JsVal

/-- JS truthiness of a value (`!!v`): `null`, `false`, `0` and `""` are
falsy, every array and object is truthy. -/
def truthy : JsVal → Bool
  | jnull => false
  | jbool b => b
  | jnum n => n != 0
  | jstr s => s != ""
  | jarr _ => true
  | jobj _ => true

/-- `typeof v === "object"` in JS: true for objects, arrays and `null`. -/
def typeofObject : JsVal → Bool
  | jnull => true
  | jarr _ => true
  | jobj _ => true
  | _ => false

end JsVal

/-- Field access `o[k]` on an object's field list (first match; JS objects
never hold duplicate keys).  `none` models `undefined`. -/
def oget (k : String) : List (String × JsVal) → Option JsVal
  | [] => none
  | (k', v) :: rest => if k' == k then some v else oget k rest

/-- JS property assignment `o[k] = v`: overwrite in place if the key
exists, otherwise append (insertion order). -/
def oset (o : List (String × JsVal)) (k : String) (v : JsVal) : List (String × JsVal) :=
  if o.any (fun p => p.1 == k) then
    o.map (fun p => if p.1 == k then (k, v) else p)
  else
    o ++ [(k, v)]

/-- Truthiness of an optional field (`!!o.k` where the field may be
absent). -/
def otruthy (x : Option JsVal) : Bool :=
  match x with
  | none => false
  | some v => v.truthy

/-- JS `x || d` on an optional value: the value if truthy, else the
default. -/
def jsOr (x : Option JsVal) (d : JsVal) : JsVal :=
  match x with
  | some v => if v.truthy then v else d
  | none => d

/-- JS `x || d` for an optional string-valued field. -/
def jsOrStr (x : Option String) (d : String) : String :=
  match x with
  | some s => if s != "" then s else d
  | none => d

/-- JS `x || d` for an optional numeric field (`0` is falsy). -/
def jsOrNat (x : Option Nat) (d : Nat) : Nat :=
  match x with
  | some n => if n != 0 then n else d
  | none => d

/-- JS `x || d` for an optional integer field (`0` is falsy). -/
def jsOrInt (x : Option Int) (d : Int) : Int :=
  match x with
  | some n => if n != 0 then n else d
  | none => d

/-- `sub` is a leading run of `l` (character-list prefix test). -/
def charsLead : List Char → List Char → Bool
  | [], _ => true
  | _ :: _, [] => false
  | c :: cs, d :: ds => c == d && charsLead cs ds

/-- `sub` occurs contiguously somewhere in `l`. -/
def charsHaveSub (sub : List Char) : List Char → Bool
  | [] => charsLead sub []
  | c :: cs => charsLead sub (c :: cs) || charsHaveSub sub cs

/-- JS `s.includes(sub)`: substring test. -/
def jsIncludes (s sub : String) : Bool :=
  charsHaveSub sub.data s.data

/-- JS `s.slice(0, n)`: the first `n` units of the string. -/
def jsSlice (s : String) (n : Nat) : String :=
  String.mk (s.data.take n)

/-! ## Model mapping (`proxy.mjs` lines 60-89) -/

/-- `MODEL_MAP` from `proxy.mjs` lines 60-75, verbatim. -/
def MODEL_MAP : List (String × String) :=
  [ ("claude-sonnet-4-5-20250514", "claude-sonnet-4-5"),
    ("claude-sonnet-4-5", "claude-sonnet-4-5"),
    ("claude-opus-4-5-20250414", "claude-opus-4-6-thinking"),
    ("claude-opus-4-5", "claude-opus-4-6-thinking"),
    ("claude-sonnet-4-20250514", "claude-sonnet-4-5"),
    ("claude-sonnet-4-5-thinking", "claude-sonnet-4-5-thinking"),
    ("claude-opus-4-5-thinking", "claude-opus-4-6-thinking"),
    ("claude-opus-4-6-thinking", "claude-opus-4-6-thinking"),
    ("claude-opus-4-6", "claude-opus-4-6-thinking"),
    ("claude-haiku-3-5-20241022", "claude-sonnet-4-5"),
    ("claude-3-5-haiku-20241022", "claude-sonnet-4-5") ]

/-- Exact-table lookup `MODEL_MAP[anthropicModel]` (a hit with a truthy
value; every table value is a non-empty string, so a hit is truthy). -/
def modelMapLookup (m : String) : Option String :=
  MODEL_MAP.lookup m

/-- `mapModel` from `proxy.mjs` lines 77-85: exact table first, then the
`includes` heuristics, then the fixed default. -/
def mapModel (anthropicModel : String) : String :=
  match modelMapLookup anthropicModel with
  | some v => v
  | none =>
    if jsIncludes anthropicModel "opus" then "claude-opus-4-6-thinking"
    else if jsIncludes anthropicModel "sonnet" then "claude-sonnet-4-5-thinking"
    else "claude-opus-4-6-thinking"

/-- `isThinkingModel` from `proxy.mjs` lines 87-89. -/
def isThinkingModel (modelId : String) : Bool :=
  jsIncludes modelId "thinking"


/-! ## JSON serialization (JS `JSON.stringify`, used by `extractText` and
the unknown-block fallback).  String escaping is modelled for the common
escapes (quote, backslash, newline, tab, carriage return); rarer control
characters are passed through unescaped. -/

/-- Escape one character for a JSON string literal. -/
def jsonEscChar (c : Char) : String :=
  if c = '"' then "\\\""
  else if c = '\\' then "\\\\"
  else if c = '\n' then "\\n"
  else if c = '\t' then "\\t"
  else if c = '\r' then "\\r"
  else String.singleton c

/-- Quote a string as a JSON string literal. -/
def jsonQuote (s : String) : String :=
  "\"" ++ String.join (s.data.map jsonEscChar) ++ "\""

mutual

/-- JS `JSON.stringify` on a JSON value (modulo the escaping note above). -/
def jsonStringify : JsVal → String
  | .jnull => "null"
  | .jbool b => if b then "true" else "false"
  | .jnum n => toString n
  | .jstr s => jsonQuote s
  | .jarr xs => "[" ++ jsonStringifyList xs ++ "]"
  | .jobj fs => "\x7b" ++ jsonStringifyFields fs ++ "\x7d"

/-- Comma-separated serialization of array elements. -/
def jsonStringifyList : List JsVal → String
  | [] => ""
  | [x] => jsonStringify x
  | x :: y :: rest => jsonStringify x ++ "," ++ jsonStringifyList (y :: rest)

/-- Comma-separated serialization of object fields. -/
def jsonStringifyFields : List (String × JsVal) → String
  | [] => ""
  | [(k, v)] => jsonQuote k ++ ":" ++ jsonStringify v
  | (k, v) :: p :: rest =>
      jsonQuote k ++ ":" ++ jsonStringify v ++ "," ++ jsonStringifyFields (p :: rest)

end

/-! ## Client request data model (Anthropic Messages payload as `proxy.mjs`
reads it).  Only the fields the proxy inspects are modelled; pass-through
fields it never reads (e.g. `stream`) and fields irrelevant to the claims
under verification (`system`, `temperature`) are omitted. -/

mutual

/-- One content block of a client message (`msg.content[i]`).  The `other`
constructor stands for every unrecognized `type`, carrying the `text` and
`content` fields the fallback path reads. -/
inductive ABlock where
  | text (t : Option String)
  | thinking
  | image (mediaType : Option String) (data : Option String)
  | toolUse (name : String) (input : Option JsVal) (id : Option String)
  | toolResult (toolUseId : Option String) (content : TRContent)
  | other (textField : Option JsVal) (contentField : Option JsVal)

/-- The `content` field of a `tool_result` block: absent/null, a string, a
block list, or any other object. -/
inductive TRContent where
  | absent
  | str (s : String)
  | blocks (bs : List ABlock)
  | objOther (j : JsVal)

end

/-- The `content` field of a client message: a string, a block array, or
anything else (which the converter treats as yielding no parts). -/
inductive AContent where
  | str (s : String)
  | blocks (bs : List ABlock)
  | otherContent

/-- One client message.  Null entries of the `messages` array are skipped
by the source (`if (!msg) continue`) and are not modelled. -/
structure AMsg where
  role : String
  content : AContent

/-- One provider-format part (`proxy.mjs` builds these in
`convertAnthropicToGoogle`). -/
inductive ReqPart where
  | text (s : String)
  | inlineData (mimeType : String) (data : String)
  | functionCall (name : String) (args : JsVal) (id : Option String)
  | functionResponse (name : String) (id : Option String) (output : String)

/-- One provider turn (`{role, parts}`). -/
structure GContent where
  role : String
  parts : List ReqPart

/-! ## Request translation (`proxy.mjs` lines 94-207) -/

/-- `extractText` from `proxy.mjs` lines 94-102.  In the array case JS
`Array.prototype.join` renders an `undefined` element as the empty
string. -/
def extractText : TRContent → String
  | .absent => "(no output)"
  | .str s => if s != "" then s else "(empty)"
  | .blocks bs =>
      let texts := bs.filterMap (fun b => match b with
        | .text t => some (t.getD "")
        | _ => none)
      let joined := String.intercalate "\n" texts
      if joined != "" then joined else "(empty)"
  | .objOther j => jsonStringify j

/-- The per-block `switch` of the regular message path (`proxy.mjs` lines
142-176).  The `toolResult` case is unreachable here: a message containing
a tool-result block takes the dedicated branch (lines 115-135) and never
reaches this switch, so its value is irrelevant; it is modelled as no
parts. -/
def blockToParts : ABlock → List ReqPart
  | .text t =>
      match t with
      | some s => if s != "" then [.text s] else []
      | none => []
  | .thinking => []
  | .image mediaType data => [.inlineData (jsOrStr mediaType "image/png") (jsOrStr data "")]
  | .toolUse name input id => [.functionCall name (jsOr input (.jobj [])) id]
  | .toolResult _ _ => []
  | .other textField contentField =>
      let txt := if otruthy textField then textField else contentField
      match txt with
      | some v =>
          if v.truthy then
            [.text (match v with | .jstr s => s | j => jsonStringify j)]
          else []
      | none => []

/-- The part sanitizer (`proxy.mjs` lines 181-187): text parts must be
non-empty strings; call, response and inline-data parts are kept. -/
def keepPart : ReqPart → Bool
  | .text s => s != ""
  | _ => true

/-- The tool-result blocks of a message's block list. -/
def toolResultsOf (bs : List ABlock) : List (Option String × TRContent) :=
  bs.filterMap (fun b => match b with
    | .toolResult id c => some (id, c)
    | _ => none)

/-- The non-empty plain-text blocks of a message's block list
(`b?.type === "text" && b.text`, `proxy.mjs` line 129). -/
def nonEmptyTextsOf (bs : List ABlock) : List String :=
  bs.filterMap (fun b => match b with
    | .text (some s) => if s != "" then some s else none
    | _ => none)

/-- The regular (non-tool-result) conversion of a message's content into
parts (`proxy.mjs` lines 138-178). -/
def regularParts : AContent → List ReqPart
  | .str s => if s != "" then [.text s] else []
  | .blocks bs => bs.flatMap blockToParts
  | .otherContent => []

/-- Conversion of a single client message into zero or more raw provider
turns (`proxy.mjs` lines 109-195): the tool-result branch emits a
function-response user turn plus, when present, a sibling text user turn;
the regular branch emits one turn, padded with a `"..."` placeholder when
all parts were filtered away. -/
def convertOneMsg (msg : AMsg) : List GContent :=
  let regular : List GContent :=
    let role := if msg.role == "assistant" then "model" else "user"
    let sanitizedParts := (regularParts msg.content).filter keepPart
    [⟨role, if sanitizedParts.isEmpty then [.text "..."] else sanitizedParts⟩]
  match msg.content with
  | .blocks bs =>
      let trs := toolResultsOf bs
      if trs.length > 0 then
        let toolParts := trs.map (fun tr =>
          ReqPart.functionResponse (jsOrStr tr.1 "unknown") tr.1 (extractText tr.2))
        let textBlocks := nonEmptyTextsOf bs
        ⟨"user", toolParts⟩ ::
          (if textBlocks.length > 0 then [⟨"user", textBlocks.map ReqPart.text⟩] else [])
      else regular
  | _ => regular

/-- All raw provider turns of a message list, in order. -/
def convertMessages (msgs : List AMsg) : List GContent :=
  msgs.flatMap convertOneMsg

/-- The body of the role-alternation merge loop, carrying the most
recently emitted turn: a same-role successor has its parts appended into
it, a different-role successor flushes it. -/
def mergeInto (cur : GContent) : List GContent → List GContent
  | [] => [cur]
  | e :: rest =>
      if cur.role == e.role then mergeInto ⟨cur.role, cur.parts ++ e.parts⟩ rest
      else cur :: mergeInto e rest

/-- The role-alternation merge (`proxy.mjs` lines 197-207).  The source
walks the raw turns pushing onto an output array and appends parts into
the array's last element whenever the roles coincide; since only the most
recently emitted turn can ever absorb a successor, this is the same walk
carrying that last turn explicitly. -/
def mergeTurns : List GContent → List GContent
  | [] => []
  | e :: rest => mergeInto e rest

/-- Thinking configuration of the provider request. -/
structure ThinkingConfig where
  includeThoughts : Bool
  thinkingBudget : Int
deriving Repr, DecidableEq

/-- Generation configuration of the provider request (`temperature` is a
pass-through float the claims do not touch and is omitted). -/
structure GenerationConfig where
  maxOutputTokens : Int
  thinkingConfig : Option ThinkingConfig
deriving Repr, DecidableEq

/-- The provider request as far as the verified claims observe it: mapped
model, merged turn list and generation config.  (Identity fields,
`systemInstruction`, tools and the random request id are orthogonal to the
claims and omitted.) -/
structure GoogleBody where
  model : String
  contents : List GContent
  generationConfig : GenerationConfig

/-- The client request fields the generation-config and message logic
reads.  `thinkingBudgetTokens` models `anthropicReq.thinking?.budget_tokens`. -/
structure AnthropicReq where
  model : String
  messages : List AMsg
  max_tokens : Option Int
  thinkingBudgetTokens : Option Int

/-- `convertAnthropicToGoogle` (`proxy.mjs` lines 104-282) restricted to
the observed fields.  `Math.floor(rawMaxTokens * 0.25)` is exact floating
multiplication by 2⁻² followed by floor, i.e. flooring division by 4
(`Int.fdiv`). -/
def convertAnthropicToGoogle (req : AnthropicReq) : GoogleBody :=
  let googleModel := mapModel req.model
  let contents := mergeTurns (convertMessages req.messages)
  let rawMaxTokens := jsOrInt req.max_tokens 16384
  let generationConfig : GenerationConfig :=
    if isThinkingModel googleModel then
      let dynamicBudget := min 10240 (max 1024 (Int.fdiv rawMaxTokens 4))
      let thinkingBudget := jsOrInt req.thinkingBudgetTokens dynamicBudget
      let maxOutputTokens := max rawMaxTokens (thinkingBudget + 1024)
      ⟨maxOutputTokens, some ⟨true, thinkingBudget⟩⟩
    else
      ⟨rawMaxTokens, none⟩
  ⟨googleModel, contents, generationConfig⟩

/-! ## Schema normalizer (`proxy.mjs` lines 284-368)

Three passes: `stripDollarSchema`, `sanitizeSchema`, `ensureSchemaType`.
`sanitizeSchema` can throw in JS (calling `.filter` on a truthy non-array
`anyOf`/`oneOf` value, or `Object.entries(null)` for a `properties` field
whose value is `null`), so it is modelled in `Except`; its recursion
pattern (into the fields of the union-flattened object, which is not a
structural subterm) is driven by a fuel parameter, and every statement
about it quantifies over the fuel. -/

/-- Key/value pairs `["0", x0], ["1", x1], …` as `Object.entries` yields
them for an array. -/
def indexKeys (i : Nat) : List JsVal → List (String × JsVal)
  | [] => []
  | x :: xs => (toString i, x) :: indexKeys (i + 1) xs

mutual

/-- `stripDollarSchema` (`proxy.mjs` lines 286-299): drop every `$`-prefixed
key at every nesting level, recursing into object and array values. -/
def stripDollarSchema : JsVal → JsVal
  | .jobj fields => .jobj (stripDollarFields fields)
  | .jarr xs => .jarr (stripDollarList xs)
  | j => j

/-- The entry loop of `stripDollarSchema`: skip `$`-keys and recurse into
the values.  The source only recurses when
`typeof value === "object" && value !== null`, but `stripDollarSchema` is
the identity on every other value, so the guard is semantics-preserving
and dropped here to keep the recursion structural. -/
def stripDollarFields : List (String × JsVal) → List (String × JsVal)
  | [] => []
  | (k, v) :: rest =>
      if charsLead "$".data k.data then stripDollarFields rest
      else (k, stripDollarSchema v) :: stripDollarFields rest

/-- `schema.map(stripDollarSchema)` for the array case. -/
def stripDollarList : List JsVal → List JsVal
  | [] => []
  | x :: xs => stripDollarSchema x :: stripDollarList xs

end

/-- `ALLOWED_SCHEMA_FIELDS` (`proxy.mjs` lines 302-304). -/
def ALLOWED_SCHEMA_FIELDS : List String :=
  ["type", "description", "properties", "required", "items", "enum", "nullable"]

/-- JS spread of a value into an object literal (`{...v}`): objects spread
their fields, arrays and strings spread index-keyed elements, primitives
spread nothing. -/
def spreadFields : JsVal → List (String × JsVal)
  | .jobj fs => fs
  | .jarr xs => indexKeys 0 xs
  | .jstr s => indexKeys 0 (s.data.map (fun c => .jstr (String.singleton c)))
  | _ => []

/-- `v && typeof v === "object"` — the variant filter of the union
flattener. -/
def isObjectish (v : JsVal) : Bool :=
  v.truthy && v.typeofObject

/-- `v.enum || v.properties` — the "most specific variant" test. -/
def hasEnumOrProps : JsVal → Bool
  | .jobj fs => otruthy (oget "enum" fs) || otruthy (oget "properties" fs)
  | _ => false

/-- `{...variant, ...(working.description ? {description: working.description} : {})}`:
spread the chosen variant, then reattach the parent's truthy description. -/
def mergeDescription (variant : JsVal) (o : List (String × JsVal)) : List (String × JsVal) :=
  let base := spreadFields variant
  match oget "description" o with
  | some d => if d.truthy then oset base "description" d else base
  | none => base

/-- The union-flattening step of `sanitizeSchema` (`proxy.mjs` lines
311-327).  Entered when `anyOf` or `oneOf` is truthy; the chosen value's
`.filter` call throws (`Except.error`) when that value is not an array. -/
def flattenUnion (o : List (String × JsVal)) : Except Unit (List (String × JsVal)) :=
  if otruthy (oget "anyOf" o) || otruthy (oget "oneOf" o) then
    let u := if otruthy (oget "anyOf" o) then (oget "anyOf" o).getD .jnull
             else (oget "oneOf" o).getD .jnull
    match u with
    | .jarr xs =>
        let variants := xs.filter isObjectish
        match variants with
        | [v] => .ok (mergeDescription v o)
        | v0 :: _ :: _ =>
            match variants.find? hasEnumOrProps with
            | some specific => .ok (mergeDescription specific o)
            | none => .ok (mergeDescription v0 o)
        | [] => .ok o
    | _ => .error ()
  else .ok o

/-- `Object.fromEntries`: later entries overwrite earlier ones in place. -/
def fromEntries (l : List (String × JsVal)) : List (String × JsVal) :=
  l.foldl (fun acc p => oset acc p.1 p.2) []

/-- `Object.entries(v)` for a value of JS type `"object"`: throws on
`null`, index-keys an array, lists an object's fields. -/
def jsEntries : JsVal → Except Unit (List (String × JsVal))
  | .jnull => .error ()
  | .jarr xs => .ok (indexKeys 0 xs)
  | .jobj fs => .ok fs
  | _ => .error ()

mutual

/-- `sanitizeSchema` (`proxy.mjs` lines 306-343), fuel-indexed: flatten a
union at this node, then rebuild the node keeping only allowed fields,
recursing per `properties` entry and into `items`. -/
def sanitizeSchema : Nat → JsVal → Except Unit JsVal
  | 0, _ => .error ()
  | fuel + 1, schema =>
    match schema with
    | .jobj o => do
        let working ← flattenUnion o
        let clean ← sanitizeFields fuel working
        pure (.jobj clean)
    | .jarr xs => do
        pure (.jarr (← sanitizeList fuel xs))
    | j => pure j

/-- The allow-list entry loop of `sanitizeSchema` (lines 329-342). -/
def sanitizeFields : Nat → List (String × JsVal) → Except Unit (List (String × JsVal))
  | 0, _ => .error ()
  | _ + 1, [] => pure []
  | fuel + 1, (k, v) :: rest => do
      if ALLOWED_SCHEMA_FIELDS.contains k then
        if k == "properties" && v.typeofObject then
          let entries ← jsEntries v
          let mapped ← sanitizeEntries fuel entries
          pure ((k, .jobj (fromEntries mapped)) :: (← sanitizeFields fuel rest))
        else if k == "items" then
          pure ((k, (← sanitizeSchema fuel v)) :: (← sanitizeFields fuel rest))
        else
          pure ((k, v) :: (← sanitizeFields fuel rest))
      else
        sanitizeFields fuel rest

/-- `Object.entries(value).map(([k, v]) => [k, sanitizeSchema(v)])`. -/
def sanitizeEntries : Nat → List (String × JsVal) → Except Unit (List (String × JsVal))
  | 0, _ => .error ()
  | _ + 1, [] => pure []
  | fuel + 1, (k, v) :: rest => do
      pure ((k, (← sanitizeSchema fuel v)) :: (← sanitizeEntries fuel rest))

/-- `schema.map(sanitizeSchema)` for the array case. -/
def sanitizeList : Nat → List JsVal → Except Unit (List JsVal)
  | 0, _ => .error ()
  | _ + 1, [] => pure []
  | fuel + 1, x :: xs => do
      pure ((← sanitizeSchema fuel x) :: (← sanitizeList fuel xs))

end

/-- Type inference of `ensureSchemaType` (`proxy.mjs` lines 352-357):
object if truthy `properties`, else array if truthy `items`, else string
if truthy `enum`, else object. -/
def inferTypeStr (o : List (String × JsVal)) : String :=
  if otruthy (oget "properties" o) then "object"
  else if otruthy (oget "items" o) then "array"
  else if otruthy (oget "enum" o) then "string"
  else "object"

mutual

/-- `ensureSchemaType` (`proxy.mjs` lines 345-368).  The source sets the
default `type` before recursing into `properties`/`items`; the two steps
touch disjoint fields and the recursion preserves every value's
truthiness and JS type, so they commute, and the recursion is performed
first here to keep it structural.  Field order is preserved: JS assignment
of an existing key keeps its position, of a fresh `type` appends it. -/
def ensureSchemaType : JsVal → JsVal
  | .jobj o =>
      let recd := ensureFields o
      if otruthy (oget "type" o) then .jobj recd
      else .jobj (oset recd "type" (.jstr (inferTypeStr o)))
  | .jarr xs => .jarr (ensureList xs)
  | j => j

/-- The field walk of `ensureSchemaType`: rebuild `properties` (per entry,
array values become index-keyed objects via `Object.fromEntries`) and
recurse into a truthy `items`. -/
def ensureFields : List (String × JsVal) → List (String × JsVal)
  | [] => []
  | (k, v) :: rest =>
      let v' :=
        if k == "properties" then
          match v with
          | .jobj ps => .jobj (ensureEntryVals ps)
          | .jarr xs => .jobj (indexKeys 0 (ensureList xs))
          | w => w
        else if k == "items" then
          (if v.truthy then ensureSchemaType v else v)
        else v
      (k, v') :: ensureFields rest

/-- `Object.entries(s.properties).map(([k, v]) => [k, ensureSchemaType(v)])`. -/
def ensureEntryVals : List (String × JsVal) → List (String × JsVal)
  | [] => []
  | (k, v) :: rest => (k, ensureSchemaType v) :: ensureEntryVals rest

/-- `schema.map(ensureSchemaType)` for the array case. -/
def ensureList : List JsVal → List JsVal
  | [] => []
  | x :: xs => ensureSchemaType x :: ensureList xs

end

/-- The value transform the `ensureSchemaType` field walk applies to one
field (named for proof statements; identical to the inline transform in
`ensureFields`). -/
def ensureFieldVal (k : String) (v : JsVal) : JsVal :=
  if k == "properties" then
    match v with
    | .jobj ps => .jobj (ensureEntryVals ps)
    | .jarr xs => .jobj (indexKeys 0 (ensureList xs))
    | w => w
  else if k == "items" then
    (if v.truthy then ensureSchemaType v else v)
  else v

/-- The full tool-schema pipeline as used at `proxy.mjs` line 259:
`ensureSchemaType(sanitizeSchema(stripDollarSchema(schema)))`. -/
def cleanToolSchema (fuel : Nat) (schema : JsVal) : Except Unit JsVal := do
  pure (ensureSchemaType (← sanitizeSchema fuel (stripDollarSchema schema)))

/-- Reachability of a schema node through the schema positions of a
value: the value itself, the elements of an array, the values of an
object-valued `properties` field, the elements of an array-valued
`properties` field, and the value of `items`.  Values under
non-recursive fields (`description`, `enum`, `required`, `nullable`) are
not schema nodes. -/
inductive SchemaPos : JsVal → JsVal → Prop where
  | refl (j : JsVal) : SchemaPos j j
  | arrElem {xs : List JsVal} {x y : JsVal} :
      x ∈ xs → SchemaPos x y → SchemaPos (.jarr xs) y
  | propVal {o ps : List (String × JsVal)} {k : String} {v y : JsVal} :
      oget "properties" o = some (.jobj ps) → (k, v) ∈ ps → SchemaPos v y →
      SchemaPos (.jobj o) y
  | propArrElem {o : List (String × JsVal)} {xs : List JsVal} {x y : JsVal} :
      oget "properties" o = some (.jarr xs) → x ∈ xs → SchemaPos x y →
      SchemaPos (.jobj o) y
  | itemsVal {o : List (String × JsVal)} {v y : JsVal} :
      oget "items" o = some v → SchemaPos v y → SchemaPos (.jobj o) y

/-- Every object node reachable in schema position carries only allowed
keys. -/
def KeysAllowedAt (j : JsVal) : Prop :=
  ∀ n, SchemaPos j n → ∀ o, n = .jobj o → ∀ p ∈ o, p.1 ∈ ALLOWED_SCHEMA_FIELDS

/-- Every object node reachable in schema position carries only allowed
keys and a truthy (non-empty) `type`. -/
def NodeOkAt (j : JsVal) : Prop :=
  ∀ n, SchemaPos j n → ∀ o, n = .jobj o →
    (∀ p ∈ o, p.1 ∈ ALLOWED_SCHEMA_FIELDS) ∧ otruthy (oget "type" o) = true

/-! ## Backend response model

The backend answers with an event stream of JSON envelopes
`{response: {candidates: [{content: {parts: [...]}, finishReason}], usageMetadata}}`.
Both translators parse the SSE framing upstream of the logic modelled here
(`data:`-prefixed lines, malformed payloads dropped, a trailing partial
line carried over); the model takes the list of successfully parsed
envelopes.  A part's `text` field is either absent or a string;
`thought` models `part.thought === true` and `thoughtSignature` the
presence of a truthy thought signature. -/

/-- A `functionCall` part payload. -/
structure FnCall where
  name : String
  args : Option JsVal

/-- One part of a backend candidate. -/
structure RespPart where
  text : Option String
  thought : Bool
  thoughtSignature : Bool
  functionCall : Option FnCall

/-- Backend cumulative usage counters. -/
structure UsageMetadata where
  promptTokenCount : Option Nat
  candidatesTokenCount : Option Nat
  thoughtsTokenCount : Option Nat

/-- One backend candidate; `parts` models `candidate.content?.parts`. -/
structure Candidate where
  parts : Option (List RespPart)
  finishReason : Option String

/-- The `response` envelope member. -/
structure RespEnvelope where
  candidates : List Candidate
  usageMetadata : Option UsageMetadata

/-- One parsed SSE data event. -/
structure GChunk where
  response : Option RespEnvelope

/-! ## Batch translator (`proxy.mjs` lines 372-434,
`convertGoogleSSEToAnthropicStream`) -/

/-- One content block of the client-format response.  Tool-use ids are
generated in the source from a timestamp and randomness
(`toolu_${Date.now()}_…`); the model determinizes the generator as a
running counter, preserving exactly the property the source relies on:
each block gets a fresh id. -/
inductive ABlockOut where
  | text (s : String)
  | toolUse (id : Nat) (name : String) (input : JsVal)

/-- Is this block a `tool_use` block? -/
def isToolUseBlock : ABlockOut → Bool
  | .toolUse _ _ _ => true
  | _ => false

/-- The client-format non-streaming response as far as the claims observe
it (the constant `type`/`role`/`stop_sequence` fields and the random
message id are omitted). -/
structure AnthropicResponse where
  model : String
  content : List ABlockOut
  stop_reason : String
  input_tokens : Nat
  output_tokens : Nat

/-- `const existing = content.find(b => b.type === "text"); if (existing)
existing.text += part.text; else content.push({type: "text", text: part.text})`:
append to the first text block, else push a new one at the end. -/
def addTextToContent : List ABlockOut → String → List ABlockOut
  | [], s => [.text s]
  | .text t :: rest, s => .text (t ++ s) :: rest
  | b :: rest, s => b :: addTextToContent rest s

/-- Accumulator of the batch translator's event loop. -/
structure BatchState where
  content : List ABlockOut
  nextToolId : Nat
  inputTokens : Nat
  outputTokens : Nat
  stopReason : String

/-- Processing of one part in the batch loop (`proxy.mjs` lines 393-407):
non-signature text is merged into the single text block; every function
call becomes its own tool-use block with a fresh id and
`args || {}` as input. -/
def batchPart (st : BatchState) (p : RespPart) : BatchState :=
  let st1 :=
    match p.text with
    | some t => if !p.thoughtSignature then { st with content := addTextToContent st.content t } else st
    | none => st
  match p.functionCall with
  | some fc =>
      { st1 with
        content := st1.content ++ [.toolUse st1.nextToolId fc.name (jsOr fc.args (.jobj []))],
        nextToolId := st1.nextToolId + 1 }
  | none => st1

/-- Processing of one parsed event in the batch loop (`proxy.mjs` lines
388-416): parts of the first candidate, the `finishReason === "STOP"`
re-assignment, then the cumulative usage overwrite. -/
def batchChunk (st : BatchState) (c : GChunk) : BatchState :=
  match c.response with
  | none => st
  | some resp =>
      let st1 :=
        match resp.candidates.head? with
        | some cand =>
            match cand.parts with
            | some parts =>
                let st' := parts.foldl batchPart st
                match cand.finishReason with
                | some fr => if fr == "STOP" then { st' with stopReason := "end_turn" } else st'
                | none => st'
            | none => st
        | none => st
      match resp.usageMetadata with
      | some u =>
          { st1 with
            inputTokens := u.promptTokenCount.getD 0,
            outputTokens := u.candidatesTokenCount.getD 0 + u.thoughtsTokenCount.getD 0 }
      | none => st1

/-- `convertGoogleSSEToAnthropicStream` (`proxy.mjs` lines 372-434) at the
parsed-event level: fold the events, then derive `stop_reason` from the
presence of a tool-use block and substitute one empty text block for an
empty content list. -/
def convertGoogleSSEToAnthropicStream (chunks : List GChunk) (anthropicModel : String) :
    AnthropicResponse :=
  let st := chunks.foldl batchChunk ⟨[], 0, 0, 0, "end_turn"⟩
  let stopReason := if st.content.any isToolUseBlock then "tool_use" else st.stopReason
  let content := if st.content.isEmpty then [.text ""] else st.content
  ⟨anthropicModel, content, stopReason, st.inputTokens, st.outputTokens⟩

/-! ## Stream translator (`proxy.mjs` lines 438-562,
`streamGoogleToAnthropic`) -/

/-- The `content_block` payload of a `content_block_start` event: an empty
text block, or a tool-use block with fresh id, reported name and empty
input. -/
inductive StartBlock where
  | textStart
  | toolUseStart (id : Nat) (name : String)

/-- A `content_block_delta` payload.  The source serializes the function
call arguments as one `partial_json` chunk
(`JSON.stringify(part.functionCall.args || {})`); the model carries the
argument value itself. -/
inductive DeltaKind where
  | textDelta (s : String)
  | inputJsonDelta (args : JsVal)

/-- One client-facing SSE event.  `messageDelta` carries the stop reason
and the final output token count of its `usage` member. -/
inductive AEvent where
  | messageStart (model : String)
  | contentBlockStart (index : Nat) (block : StartBlock)
  | contentBlockDelta (index : Nat) (delta : DeltaKind)
  | contentBlockStop (index : Nat)
  | messageDelta (stopReason : String) (outputTokens : Nat)
  | messageStop

/-- Per-request state of the stream translator (`proxy.mjs` lines
442-444): current block index, open-block flag, tool-id source and the
running token counters. -/
structure StreamState where
  contentIndex : Nat
  started : Bool
  nextToolId : Nat
  inputTokens : Nat
  outputTokens : Nat

/-- `!part.text` — the text field is absent or the empty string. -/
def textFalsy (t : Option String) : Bool :=
  match t with
  | none => true
  | some s => s == ""

/-- Processing of one part (`proxy.mjs` lines 481-530).  A signature-only
fragment is skipped; a thinking text part is skipped entirely (the
`continue` also skips its `functionCall` member); visible text opens a
text block if none is open and appends a delta; a function call closes
any open text block, then emits a complete tool-use block (start, one
input delta, stop) and advances the index. -/
def streamPart (st : StreamState) (p : RespPart) : StreamState × List AEvent :=
  if p.thoughtSignature && textFalsy p.text then (st, [])
  else if p.text.isSome && p.thought then (st, [])
  else
    let stepText : StreamState × List AEvent :=
      match p.text with
      | some t =>
          if st.started then
            (st, [.contentBlockDelta st.contentIndex (.textDelta t)])
          else
            ({ st with started := true },
             [.contentBlockStart st.contentIndex .textStart,
              .contentBlockDelta st.contentIndex (.textDelta t)])
      | none => (st, [])
    let st1 := stepText.1
    match p.functionCall with
    | some fc =>
        let closed : StreamState × List AEvent :=
          if st1.started then
            ({ st1 with contentIndex := st1.contentIndex + 1, started := false },
             [.contentBlockStop st1.contentIndex])
          else (st1, [])
        let stA := closed.1
        let id := stA.nextToolId
        let evs :=
          [AEvent.contentBlockStart stA.contentIndex (.toolUseStart id fc.name),
           AEvent.contentBlockDelta stA.contentIndex (.inputJsonDelta (jsOr fc.args (.jobj []))),
           AEvent.contentBlockStop stA.contentIndex]
        ({ stA with contentIndex := stA.contentIndex + 1, nextToolId := id + 1 },
         stepText.2 ++ closed.2 ++ evs)
    | none => (st1, stepText.2)

/-- Left-to-right processing of a part list, concatenating the emitted
events. -/
def streamParts (st : StreamState) : List RespPart → StreamState × List AEvent
  | [] => (st, [])
  | p :: rest =>
      let r1 := streamPart st p
      let r2 := streamParts r1.1 rest
      (r2.1, r1.2 ++ r2.2)

/-- Processing of one parsed event (`proxy.mjs` lines 477-537): parts of
the first candidate, then the cumulative usage overwrite. -/
def streamChunk (st : StreamState) (c : GChunk) : StreamState × List AEvent :=
  match c.response with
  | none => (st, [])
  | some resp =>
      let r1 :=
        match resp.candidates.head? with
        | some cand =>
            match cand.parts with
            | some parts => streamParts st parts
            | none => (st, [])
        | none => (st, [])
      let st2 :=
        match resp.usageMetadata with
        | some u =>
            { r1.1 with
              inputTokens := u.promptTokenCount.getD 0,
              outputTokens := u.candidatesTokenCount.getD 0 + u.thoughtsTokenCount.getD 0 }
        | none => r1.1
      (st2, r1.2)

/-- Left-to-right processing of the parsed event list. -/
def streamChunks (st : StreamState) : List GChunk → StreamState × List AEvent
  | [] => (st, [])
  | c :: rest =>
      let r1 := streamChunk st c
      let r2 := streamChunks r1.1 rest
      (r2.1, r1.2 ++ r2.2)

/-- `streamGoogleToAnthropic` (`proxy.mjs` lines 438-562) at the
parsed-event level: `message_start` up front, the translated chunk events,
then the closing sequence — close any open block, `message_delta` whose
stop reason is derived from `contentIndex > (started ? 1 : 0)` and whose
usage carries the final output token count, and `message_stop`.  The
mid-stream read-error path runs this same closing sequence. -/
def streamGoogleToAnthropic (chunks : List GChunk) (anthropicModel : String) : List AEvent :=
  let r := streamChunks ⟨0, false, 0, 0, 0⟩ chunks
  let st := r.1
  let closing := if st.started then [AEvent.contentBlockStop st.contentIndex] else []
  let hasToolUse := decide (st.contentIndex > (if st.started then 1 else 0))
  [AEvent.messageStart anthropicModel] ++ r.2 ++ closing ++
    [AEvent.messageDelta (if hasToolUse then "tool_use" else "end_turn") st.outputTokens,
     AEvent.messageStop]

/-! ## Endpoint racer (`proxy.mjs` lines 614-657) -/

/-- The terminal outcome of one endpoint's fetch: HTTP status and response
body text. -/
structure EpResult where
  status : Nat
  body : String

/-- `r.ok`: status in the 2xx range. -/
def respOk (r : EpResult) : Bool :=
  200 ≤ r.status && r.status ≤ 299

/-- The settled state of one `fetchOne` promise (`proxy.mjs` lines
616-625): fulfilled with the response on `r.ok`, otherwise rejected with
`{status, errText}`. -/
inductive Settled where
  | fulfilled (r : EpResult)
  | rejected (status : Nat) (errText : String)

/-- Is this promise fulfilled? -/
def isFulfilled : Settled → Bool
  | .fulfilled _ => true
  | _ => false

/-- What the proxy sends back to the client after the race. -/
inductive ProxyOutcome where
  | streamed (r : EpResult)
  | overloadedError (httpStatus : Nat) (message : String)
  | apiError (httpStatus : Nat) (message : String)

/-- The race join (`proxy.mjs` lines 627-657): `Promise.allSettled` keeps
the results in endpoint-list order; the first fulfilled result is used;
otherwise the first-listed endpoint's rejection is classified — 429/503
become the 529 overloaded envelope, everything else the generic
`api_error` envelope carrying `errText.slice(0, 300)` (or the fixed
fallback text when the body is empty or there were no endpoints), with
HTTP status 400 for an upstream 400 and 500 otherwise. -/
def raceEndpoints (eps : List EpResult) : ProxyOutcome :=
  let results := eps.map (fun r => if respOk r then Settled.fulfilled r else Settled.rejected r.status r.body)
  match results.find? isFulfilled with
  | some (.fulfilled r) => .streamed r
  | _ =>
      match results.head? with
      | some (.rejected s t) =>
          if s == 429 || s == 503 then
            .overloadedError 529
              (if s == 429 then "Overloaded — Claude rate limited on Antigravity. Try again shortly."
               else "Service temporarily unavailable. Try again.")
          else
            let errMsg := if jsSlice t 300 != "" then jsSlice t 300 else "All endpoints failed"
            .apiError (if s == 400 then 400 else 500) errMsg
      | _ => .apiError 500 "All endpoints failed"

/-! ## Observation functions

Specification-side recomputations used to state properties of the
translators, plus concrete inputs used by the scenario claims. -/

/-- The parts the translators iterate for one parsed event:
`chunk.response?.candidates?.[0]?.content?.parts ?? []`. -/
def partsOfChunk (c : GChunk) : List RespPart :=
  match c.response with
  | some resp =>
      match resp.candidates.head? with
      | some cand => cand.parts.getD []
      | none => []
  | none => []

/-- The externally-visible text fragments a part contributes in the batch
path (`part.text !== undefined && !part.thoughtSignature`). -/
def partTexts (p : RespPart) : List String :=
  match p.text with
  | some t => if !p.thoughtSignature then [t] else []
  | none => []

/-- The function call a part contributes, with its effective arguments
(`part.functionCall.args || {}`). -/
def partCalls (p : RespPart) : List (String × JsVal) :=
  match p.functionCall with
  | some fc => [(fc.name, jsOr fc.args (.jobj []))]
  | none => []

/-- All externally-visible text fragments of an event list, in encounter
order. -/
def visibleTexts (chunks : List GChunk) : List String :=
  chunks.flatMap (fun c => (partsOfChunk c).flatMap partTexts)

/-- All function calls of an event list, in encounter order. -/
def fnCalls (chunks : List GChunk) : List (String × JsVal) :=
  chunks.flatMap (fun c => (partsOfChunk c).flatMap partCalls)

/-- The usage metadata carried by one parsed event, if any. -/
def usageOf (c : GChunk) : Option UsageMetadata :=
  match c.response with
  | some resp => resp.usageMetadata
  | none => none

/-- The last observed cumulative usage metadata of an event list. -/
def lastUsage : List GChunk → Option UsageMetadata
  | [] => none
  | c :: rest =>
      match lastUsage rest with
      | some u => some u
      | none => usageOf c

/-- Concatenation of a fragment list in order. -/
def strConcat : List String → String
  | [] => ""
  | s :: rest => s ++ strConcat rest

/-- Tool-use blocks for a run of function calls, ids counting up from
`i`. -/
def toolBlocksFrom (i : Nat) : List (String × JsVal) → List ABlockOut
  | [] => []
  | (n, a) :: rest => .toolUse i n a :: toolBlocksFrom (i + 1) rest

/-- Block-discipline checker for a client-facing event sequence: scanning
with the next fresh index and an open-block flag, demand that blocks open
only when none is open and exactly at the next index, that deltas target
the open block, and that stops close the open block and advance the
index.  Returns the final scanner state, `none` on a violation. -/
def runBlockCheck : List AEvent → Nat → Bool → Option (Nat × Bool)
  | [], next, opened => some (next, opened)
  | e :: rest, next, opened =>
      match e with
      | .contentBlockStart i _ =>
          if !opened && i == next then runBlockCheck rest next true else none
      | .contentBlockDelta i _ =>
          if opened && i == next then runBlockCheck rest next opened else none
      | .contentBlockStop i =>
          if opened && i == next then runBlockCheck rest (next + 1) false else none
      | _ => runBlockCheck rest next opened

/-- Indices are assigned contiguously from 0 and every block is closed
before the next one opens. -/
def blocksWellFormed (evs : List AEvent) : Bool :=
  (runBlockCheck evs 0 false).isSome

/-- Relation between the batch accumulator and the visible fragments and
function calls consumed so far: `stopReason` still holds its initial
value, tool ids count the calls, the tool blocks are the calls in
encounter order, and all visible text sits concatenated in a single text
block at its first-encounter position (after the first `k` tool
blocks). -/
def BatchInv (st : BatchState) (texts : List String) (calls : List (String × JsVal)) : Prop :=
  st.stopReason = "end_turn" ∧
  st.nextToolId = calls.length ∧
  ((texts = [] ∧ st.content = toolBlocksFrom 0 calls) ∨
   (texts ≠ [] ∧ ∃ k, k ≤ calls.length ∧
      st.content = toolBlocksFrom 0 (calls.take k) ++
        ABlockOut.text (strConcat texts) :: toolBlocksFrom k (calls.drop k)))

/-- A backend event carrying exactly one function-call part (name `"t"`,
empty arguments). -/
def fcChunk : GChunk :=
  ⟨some ⟨[⟨some [⟨none, false, false, some ⟨"t", some (.jobj [])⟩⟩], none⟩], none⟩⟩

/-- A backend event carrying only usage metadata (5 prompt tokens, 7
candidate tokens, 3 thought tokens). -/
def usageChunk : GChunk :=
  ⟨some ⟨[], some ⟨some 5, some 7, some 3⟩⟩⟩

/-- A backend event carrying exactly one visible text part `"hi"`. -/
def textChunk : GChunk :=
  ⟨some ⟨[⟨some [⟨some "hi", false, false, none⟩], none⟩], none⟩⟩

/-! # Theorems -/

/-- Every hit in the exact-match table is one of the three target model
ids. -/
lemma modelMapLookup_mem (m v : String) (h : modelMapLookup m = some v) :
    v = "claude-sonnet-4-5" ∨ v = "claude-opus-4-6-thinking" ∨ v = "claude-sonnet-4-5-thinking" := by
  simp only [modelMapLookup, MODEL_MAP, List.lookup] at h
  repeat' split at h
  all_goals simp_all

/-- C9: model mapping consults the exact-match table first; otherwise a
name containing "opus" maps to the strong reasoning target and a name
containing "sonnet" maps to the thinking mid-tier target; otherwise the
fixed default target is returned — and the mapping always returns one of
the three target ids, never failing. -/
theorem C9_model_mapping (m : String) :
    (∀ v, modelMapLookup m = some v → mapModel m = v) ∧
    (modelMapLookup m = none → jsIncludes m "opus" = true →
      mapModel m = "claude-opus-4-6-thinking") ∧
    (modelMapLookup m = none → jsIncludes m "opus" = false → jsIncludes m "sonnet" = true →
      mapModel m = "claude-sonnet-4-5-thinking") ∧
    (modelMapLookup m = none → jsIncludes m "opus" = false → jsIncludes m "sonnet" = false →
      mapModel m = "claude-opus-4-6-thinking") ∧
    (mapModel m = "claude-sonnet-4-5" ∨ mapModel m = "claude-opus-4-6-thinking" ∨
      mapModel m = "claude-sonnet-4-5-thinking") := by
  refine ⟨?_, ?_, ?_, ?_, ?_⟩
  · intro v hv; simp [mapModel, hv]
  · intro hn ho; simp [mapModel, hn, ho]
  · intro hn ho hs; simp [mapModel, hn, ho, hs]
  · intro hn ho hs; simp [mapModel, hn, ho, hs]
  · cases h : modelMapLookup m with
    | some v =>
        have hm := modelMapLookup_mem m v h
        simp only [mapModel, h]
        tauto
    | none =>
        simp only [mapModel, h]
        split
        · tauto
        · split <;> tauto

/-- Witness for C9: one exact-table hit, one "opus" substring hit, one
"sonnet" substring hit, one default fallback. -/
theorem C9_model_mapping_witness :
    mapModel "claude-opus-4-5" = "claude-opus-4-6-thinking" ∧
    mapModel "custom-opus-x" = "claude-opus-4-6-thinking" ∧
    mapModel "custom-sonnet-x" = "claude-sonnet-4-5-thinking" ∧
    mapModel "some-other-model" = "claude-opus-4-6-thinking" :=
  ⟨(C9_model_mapping "claude-opus-4-5").1 "claude-opus-4-6-thinking" rfl,
   (C9_model_mapping "custom-opus-x").2.1 rfl rfl,
   (C9_model_mapping "custom-sonnet-x").2.2.1 rfl rfl rfl,
   (C9_model_mapping "some-other-model").2.2.2.1 rfl rfl rfl⟩

/-- C4: for thinking-capable targets the output budget defaults to the
client `max_tokens` (16384 when absent), the thinking budget is the client
budget if given and otherwise `min(10240, max(1024, floor(maxOut/4)))`,
the final `maxOutputTokens` is `max(original, thinkingBudget + 1024)`,
hence the thinking budget is strictly below the output budget and an
auto-computed budget lies in `[1024, 10240]`. -/
theorem C4_thinking_generation_config (req : AnthropicReq)
    (h : isThinkingModel (mapModel req.model) = true) :
    ∃ tc, (convertAnthropicToGoogle req).generationConfig.thinkingConfig = some tc ∧
      (req.max_tokens = none → jsOrInt req.max_tokens 16384 = 16384) ∧
      (∀ mt, req.max_tokens = some mt → mt ≠ 0 → jsOrInt req.max_tokens 16384 = mt) ∧
      (convertAnthropicToGoogle req).generationConfig.maxOutputTokens =
        max (jsOrInt req.max_tokens 16384) (tc.thinkingBudget + 1024) ∧
      (∀ b, req.thinkingBudgetTokens = some b → b ≠ 0 → tc.thinkingBudget = b) ∧
      ((req.thinkingBudgetTokens = none ∨ req.thinkingBudgetTokens = some 0) →
        tc.thinkingBudget = min 10240 (max 1024 (Int.fdiv (jsOrInt req.max_tokens 16384) 4)) ∧
        1024 ≤ tc.thinkingBudget ∧ tc.thinkingBudget ≤ 10240) ∧
      tc.thinkingBudget < (convertAnthropicToGoogle req).generationConfig.maxOutputTokens := by
  set dyn := min 10240 (max 1024 (Int.fdiv (jsOrInt req.max_tokens 16384) 4)) with hdyn
  set tb := jsOrInt req.thinkingBudgetTokens dyn with htb
  have hconv : (convertAnthropicToGoogle req).generationConfig =
      ⟨max (jsOrInt req.max_tokens 16384) (tb + 1024), some ⟨true, tb⟩⟩ := by
    simp [convertAnthropicToGoogle, h, htb, hdyn]
  refine ⟨⟨true, tb⟩, by simp [hconv], ?_, ?_, by simp [hconv], ?_, ?_, ?_⟩
  · intro hn; simp [jsOrInt, hn]
  · intro mt hmt hne; simp [jsOrInt, hmt, hne]
  · intro b hb hbne; simp [htb, jsOrInt, hb, hbne]
  · intro hz
    have htb2 : tb = dyn := by
      rcases hz with hz | hz <;> simp [htb, jsOrInt, hz]
    have h1 : (1024 : Int) ≤ dyn := by
      rw [hdyn]
      refine le_min (by norm_num) (le_max_left _ _)
    have h2 : dyn ≤ (10240 : Int) := by
      rw [hdyn]; exact min_le_left _ _
    exact ⟨htb2, by rw [htb2]; exact h1, by rw [htb2]; exact h2⟩
  · simp only [hconv]
    have := le_max_right (jsOrInt req.max_tokens 16384) (tb + 1024)
    show tb < max (jsOrInt req.max_tokens 16384) (tb + 1024)
    omega

/-- Witness for C4 at a concrete thinking-model request (`max_tokens`
8192, no client budget): the auto budget is 2048 and the output budget is
`max 8192 (2048 + 1024)`. -/
theorem C4_thinking_generation_config_witness :
    (convertAnthropicToGoogle ⟨"claude-opus-4-6-thinking", [], some 8192, none⟩).generationConfig.maxOutputTokens =
      max (jsOrInt (some 8192) 16384) (2048 + 1024) ∧
    (1024 : Int) ≤ 2048 ∧ (2048 : Int) ≤ 10240 := by
  obtain ⟨tc, htc, -, -, hmax, -, hauto, -⟩ :=
    C4_thinking_generation_config ⟨"claude-opus-4-6-thinking", [], some 8192, none⟩ rfl
  have hb : tc = ⟨true, 2048⟩ := by
    have heval : (convertAnthropicToGoogle
        ⟨"claude-opus-4-6-thinking", [], some 8192, none⟩).generationConfig.thinkingConfig =
        some ⟨true, 2048⟩ := rfl
    rw [heval] at htc
    exact (Option.some_inj.mp htc).symm
  obtain ⟨-, hlo, hhi⟩ := hauto (Or.inl rfl)
  rw [hb] at hmax hlo hhi
  exact ⟨hmax, hlo, hhi⟩

/-- C10: a client thinking budget of 0 is falsy in the source's
`clientBudget || dynamicBudget`, so it behaves exactly like an absent
budget: the whole translated request coincides with the budget-free
translation, and on thinking targets the auto-computed budget
`min(10240, max(1024, floor(maxOut/4)))` is used. -/
theorem C10_zero_budget_like_absent (req : AnthropicReq)
    (h0 : req.thinkingBudgetTokens = some 0) :
    convertAnthropicToGoogle req =
      convertAnthropicToGoogle { req with thinkingBudgetTokens := none } ∧
    (isThinkingModel (mapModel req.model) = true →
      ∀ tc, (convertAnthropicToGoogle req).generationConfig.thinkingConfig = some tc →
        tc.thinkingBudget = min 10240 (max 1024 (Int.fdiv (jsOrInt req.max_tokens 16384) 4))) := by
  constructor
  · simp [convertAnthropicToGoogle, h0, jsOrInt]
  · intro h tc htc
    simp [convertAnthropicToGoogle, h, h0, jsOrInt] at htc
    rw [← htc]
    simp [jsOrInt]

/-- Witness for C10: a zero budget on a thinking request equals the
absent-budget request, and the budget used is the auto value 2048. -/
theorem C10_zero_budget_like_absent_witness :
    convertAnthropicToGoogle ⟨"claude-opus-4-6-thinking", [], some 8192, some 0⟩ =
      convertAnthropicToGoogle ⟨"claude-opus-4-6-thinking", [], some 8192, none⟩ ∧
    (2048 : Int) = min 10240 (max 1024 (Int.fdiv (jsOrInt (some 8192) 16384) 4)) := by
  have h := C10_zero_budget_like_absent ⟨"claude-opus-4-6-thinking", [], some 8192, some 0⟩ rfl
  exact ⟨h.1, h.2 rfl ⟨true, 2048⟩ rfl⟩

/-- The settled list's first fulfilled entry is the first 2xx endpoint
result. -/
lemma race_find_ok (eps : List EpResult) :
    (eps.map (fun r => if respOk r then Settled.fulfilled r else Settled.rejected r.status r.body)).find? isFulfilled =
      (eps.find? respOk).map Settled.fulfilled := by
  induction eps with
  | nil => simp
  | cons p rest ih =>
      by_cases hp : respOk p
      · simp [List.find?, hp, isFulfilled]
      · simp [List.find?, hp, isFulfilled, ih]

/-- A non-empty body keeps a non-empty 300-character excerpt. -/
lemma jsSlice_300_ne_empty (s : String) (h : s ≠ "") : jsSlice s 300 ≠ "" := by
  rcases s with ⟨l⟩
  rcases l with _ | ⟨c, cs⟩
  · exact absurd rfl h
  · intro heq
    exact absurd (congrArg String.data heq) (by simp [jsSlice])

/-- C1: the endpoint racer waits for all outcomes and resolves to the
first-listed success when any endpoint succeeded; otherwise it classifies
the primary (first-listed) endpoint's failure — 429/503 become the
distinct overloaded condition, any other non-2xx becomes the generic
upstream error whose message is the response body excerpt bounded to 300
characters (with a fixed fallback text for an empty body). -/
theorem C1_endpoint_racer (eps : List EpResult) :
    (∀ r, eps.find? respOk = some r → raceEndpoints eps = .streamed r) ∧
    (eps.find? respOk = none →
      ∀ p rest, eps = p :: rest →
        ((p.status = 429 ∨ p.status = 503) →
          raceEndpoints eps = .overloadedError 529
            (if p.status = 429 then "Overloaded — Claude rate limited on Antigravity. Try again shortly."
             else "Service temporarily unavailable. Try again.")) ∧
        (p.status ≠ 429 → p.status ≠ 503 →
          ∃ msg, raceEndpoints eps = .apiError (if p.status = 400 then 400 else 500) msg ∧
            msg = (if p.body = "" then "All endpoints failed" else jsSlice p.body 300) ∧
            msg.length ≤ 300)) := by
  constructor
  · intro r hr
    simp [raceEndpoints, race_find_ok, hr, -List.find?_map]
  · intro hnone p rest heq
    subst heq
    have hall := List.find?_eq_none.mp hnone
    have hp : respOk p = false := by simpa using hall p (by simp)
    have hrest : rest.find? respOk = none :=
      List.find?_eq_none.mpr (fun a ha => hall a (List.mem_cons_of_mem _ ha))
    have hmap : ((rest.map (fun r => if respOk r then Settled.fulfilled r else Settled.rejected r.status r.body)).find? isFulfilled) = none := by
      rw [race_find_ok, hrest]; rfl
    constructor
    · intro hst
      rcases hst with h4 | h5
      · simp [raceEndpoints, hp, hmap, isFulfilled, h4]
      · simp [raceEndpoints, hp, hmap, isFulfilled, h5]
    · intro h4 h5
      by_cases hb : p.body = ""
      · refine ⟨"All endpoints failed", ?_, by simp [hb], by decide⟩
        have hsl : jsSlice p.body 300 = "" := by rw [hb]; rfl
        simp [raceEndpoints, hp, hmap, isFulfilled, h4, h5, hsl]
      · refine ⟨jsSlice p.body 300, ?_, by simp [hb], ?_⟩
        · have hsl := jsSlice_300_ne_empty p.body hb
          simp [raceEndpoints, hp, hmap, isFulfilled, h4, h5, hsl]
        · simp only [jsSlice, String.length]
          have := List.length_take_le 300 p.body.data
          omega

/-- Witness for C1: one endpoint succeeds while the primary fails (the
stream wins regardless of order), and both endpoints return 503 (the
overloaded classification wins). -/
theorem C1_endpoint_racer_witness :
    raceEndpoints [⟨500, "boom"⟩, ⟨200, "ok"⟩] = .streamed ⟨200, "ok"⟩ ∧
    raceEndpoints [⟨503, "a"⟩, ⟨503, "b"⟩] =
      .overloadedError 529 "Service temporarily unavailable. Try again." := by
  constructor
  · exact (C1_endpoint_racer [⟨500, "boom"⟩, ⟨200, "ok"⟩]).1 ⟨200, "ok"⟩ rfl
  · have h := ((C1_endpoint_racer [⟨503, "a"⟩, ⟨503, "b"⟩]).2 rfl ⟨503, "a"⟩ [⟨503, "b"⟩] rfl).1
      (Or.inr rfl)
    simpa using h

/-- The merge loop's output is non-empty and starts with the carried
turn's role. -/
lemma mergeInto_head_role (cur : GContent) (l : List GContent) :
    ∃ ps rest, mergeInto cur l = ⟨cur.role, ps⟩ :: rest := by
  induction l generalizing cur with
  | nil => exact ⟨cur.parts, [], rfl⟩
  | cons e rest ih =>
      by_cases h : (cur.role == e.role) = true
      · obtain ⟨ps, r2, hr⟩ := ih ⟨cur.role, cur.parts ++ e.parts⟩
        exact ⟨ps, r2, by simp only [mergeInto, h, if_true]; exact hr⟩
      · exact ⟨cur.parts, mergeInto e rest, by simp only [mergeInto, h, if_false]; rfl⟩

/-- The merge loop never emits two adjacent turns with the same role. -/
lemma mergeInto_chain (cur : GContent) (l : List GContent) :
    List.Chain' (fun a b => a.role ≠ b.role) (mergeInto cur l) := by
  induction l generalizing cur with
  | nil => simp [mergeInto]
  | cons e rest ih =>
      by_cases h : (cur.role == e.role) = true
      · simpa only [mergeInto, h, if_true] using ih ⟨cur.role, cur.parts ++ e.parts⟩
      · obtain ⟨ps, r2, hr⟩ := mergeInto_head_role e rest
        have hch := ih e
        rw [hr] at hch
        simp only [mergeInto, h, if_false]
        rw [hr]
        exact List.chain'_cons.mpr ⟨by simpa using h, hch⟩

/-- The merge loop preserves the concatenation of all parts. -/
lemma mergeInto_parts (cur : GContent) (l : List GContent) :
    (mergeInto cur l).flatMap GContent.parts = cur.parts ++ l.flatMap GContent.parts := by
  induction l generalizing cur with
  | nil => simp [mergeInto]
  | cons e rest ih =>
      by_cases h : (cur.role == e.role) = true
      · simp only [mergeInto, h, if_true]
        rw [ih ⟨cur.role, cur.parts ++ e.parts⟩]
        simp [List.append_assoc]
      · simp [mergeInto, h, ih e]

/-- C2: the provider turn list produced by the request translator never
holds two adjacent turns with the same role, and merging loses no part:
the concatenation of all parts equals that of the raw converted turns
(same-role turns are absorbed into their predecessor rather than starting
a new turn). -/
theorem C2_role_alternation (req : AnthropicReq) :
    List.Chain' (fun a b => a.role ≠ b.role) (convertAnthropicToGoogle req).contents ∧
    (convertAnthropicToGoogle req).contents.flatMap GContent.parts =
      (convertMessages req.messages).flatMap GContent.parts := by
  have hc : (convertAnthropicToGoogle req).contents = mergeTurns (convertMessages req.messages) := by
    simp [convertAnthropicToGoogle]
  rw [hc]
  cases hm : convertMessages req.messages with
  | nil => simp [mergeTurns]
  | cons e rest =>
      exact ⟨mergeInto_chain e rest, by simpa [mergeTurns] using mergeInto_parts e rest⟩

/-- The block checker over a concatenation runs the pieces in sequence. -/
lemma runBlockCheck_append (a b : List AEvent) (n : Nat) (o : Bool) :
    runBlockCheck (a ++ b) n o =
      match runBlockCheck a n o with
      | some s => runBlockCheck b s.1 s.2
      | none => none := by
  induction a generalizing n o with
  | nil => simp [runBlockCheck]
  | cons e rest ih =>
      cases e <;> simp only [List.cons_append, runBlockCheck] <;>
        first
          | exact ih _ _
          | (split
             · exact ih _ _
             · rfl)

/-- One part's emitted events pass the block checker, carrying the state's
index and open flag. -/
lemma streamPart_check (st : StreamState) (p : RespPart) :
    runBlockCheck (streamPart st p).2 st.contentIndex st.started =
      some ((streamPart st p).1.contentIndex, (streamPart st p).1.started) := by
  rcases p with ⟨t, th, sig, fc⟩
  by_cases h1 : (sig && textFalsy t) = true
  · simp [streamPart, h1, runBlockCheck]
  · by_cases h2 : ((t : Option String).isSome && th) = true
    · simp [streamPart, h1, h2, runBlockCheck]
    · cases t with
      | none =>
          cases fc with
          | none => simp [streamPart, h1, h2, runBlockCheck]
          | some f =>
              by_cases hs : st.started = true
              · simp [streamPart, h1, h2, hs, runBlockCheck]
              · simp [streamPart, h1, h2, hs, runBlockCheck]
      | some s =>
          have hth : th = false := by simpa using h2
          cases fc with
          | none =>
              by_cases hs : st.started = true
              · simp [streamPart, h1, h2, hth, hs, runBlockCheck]
              · simp [streamPart, h1, h2, hth, hs, runBlockCheck]
          | some f =>
              by_cases hs : st.started = true
              · simp [streamPart, h1, h2, hth, hs, runBlockCheck]
              · simp [streamPart, h1, h2, hth, hs, runBlockCheck]

/-- A part list's emitted events pass the block checker. -/
lemma streamParts_check (l : List RespPart) : ∀ st : StreamState,
    runBlockCheck (streamParts st l).2 st.contentIndex st.started =
      some ((streamParts st l).1.contentIndex, (streamParts st l).1.started) := by
  induction l with
  | nil => intro st; simp [streamParts, runBlockCheck]
  | cons p rest ih =>
      intro st
      simp only [streamParts]
      rw [runBlockCheck_append, streamPart_check]
      exact ih _

/-- One parsed event's emitted events pass the block checker (the usage
overwrite leaves index and flag unchanged). -/
lemma streamChunk_check (st : StreamState) (c : GChunk) :
    runBlockCheck (streamChunk st c).2 st.contentIndex st.started =
      some ((streamChunk st c).1.contentIndex, (streamChunk st c).1.started) := by
  rcases c with ⟨resp⟩
  cases resp with
  | none => simp [streamChunk, runBlockCheck]
  | some r =>
      rcases r with ⟨cands, usage⟩
      cases hh : cands.head? with
      | none => cases usage <;> simp [streamChunk, hh, runBlockCheck]
      | some cand =>
          cases hp : cand.parts with
          | none => cases usage <;> simp [streamChunk, hh, hp, runBlockCheck]
          | some parts =>
              cases usage <;>
                simp [streamChunk, hh, hp, streamParts_check parts st]

/-- A parsed event list's emitted events pass the block checker. -/
lemma streamChunks_check (l : List GChunk) : ∀ st : StreamState,
    runBlockCheck (streamChunks st l).2 st.contentIndex st.started =
      some ((streamChunks st l).1.contentIndex, (streamChunks st l).1.started) := by
  induction l with
  | nil => intro st; simp [streamChunks, runBlockCheck]
  | cons c rest ih =>
      intro st
      simp only [streamChunks]
      rw [runBlockCheck_append, streamChunk_check]
      exact ih _

/-- C8: the stream translator's client-facing block indices are assigned
contiguously from 0 and every block is closed before the next one opens;
and a backend stream of one function-call chunk followed by one
usage-metadata chunk yields exactly message_start, content_block_start
(tool_use, index 0), content_block_delta (input_json), content_block_stop
(index 0), message_delta (stop_reason "tool_use", the observed output
token count), message_stop. -/
theorem C8_stream_block_discipline (chunks : List GChunk) (m : String) :
    blocksWellFormed (streamGoogleToAnthropic chunks m) = true ∧
    streamGoogleToAnthropic [fcChunk, usageChunk] m =
      [.messageStart m, .contentBlockStart 0 (.toolUseStart 0 "t"),
       .contentBlockDelta 0 (.inputJsonDelta (.jobj [])), .contentBlockStop 0,
       .messageDelta "tool_use" 10, .messageStop] := by
  constructor
  · have hbody := streamChunks_check chunks ⟨0, false, 0, 0, 0⟩
    rcases hre : streamChunks ⟨0, false, 0, 0, 0⟩ chunks with ⟨st, evs⟩
    rw [hre] at hbody
    simp only [blocksWellFormed, streamGoogleToAnthropic, hre]
    rw [List.append_assoc, List.append_assoc, List.singleton_append]
    simp only [runBlockCheck]
    rw [runBlockCheck_append, hbody]
    by_cases hs : st.started = true
    · simp [hs, runBlockCheck, runBlockCheck_append]
    · simp [hs, runBlockCheck, runBlockCheck_append]
  · rfl

/-- C3 (code bug): the stream translator derives the final stop reason
from `contentIndex > (started ? 1 : 0)` instead of tracking whether a
tool-use block was emitted; on a backend stream of one function-call
chunk followed by one visible text chunk it emits a tool-use block and
still closes with stop_reason "end_turn", contradicting the claimed
"tool_use iff a tool-use block was produced". -/
theorem C3_tool_then_trailing_text_stop_reason :
    streamGoogleToAnthropic [fcChunk, textChunk] "m" =
      [.messageStart "m", .contentBlockStart 0 (.toolUseStart 0 "t"),
       .contentBlockDelta 0 (.inputJsonDelta (.jobj [])), .contentBlockStop 0,
       .contentBlockStart 1 .textStart, .contentBlockDelta 1 (.textDelta "hi"),
       .contentBlockStop 1, .messageDelta "end_turn" 0, .messageStop] := rfl

/-- Concatenation distributes over fragment-list append. -/
lemma strConcat_append (l1 l2 : List String) :
    strConcat (l1 ++ l2) = strConcat l1 ++ strConcat l2 := by
  induction l1 with
  | nil => simp [strConcat]
  | cons s rest ih => simp [strConcat, ih, String.append_assoc]

/-- Tool-block rendering distributes over call-list append, continuing the
id counter. -/
lemma toolBlocksFrom_append (l1 l2 : List (String × JsVal)) : ∀ i,
    toolBlocksFrom i (l1 ++ l2) = toolBlocksFrom i l1 ++ toolBlocksFrom (i + l1.length) l2 := by
  induction l1 with
  | nil => intro i; simp [toolBlocksFrom]
  | cons c rest ih =>
      intro i
      rcases c with ⟨n, a⟩
      simp [toolBlocksFrom, ih (i + 1)]
      ring_nf
  
/-- Every rendered tool block is a tool-use block. -/
lemma toolBlocksFrom_all_tools (l : List (String × JsVal)) : ∀ i, ∀ b ∈ toolBlocksFrom i l,
    isToolUseBlock b = true := by
  induction l with
  | nil => intro i b hb; simp [toolBlocksFrom] at hb
  | cons c rest ih =>
      intro i b hb
      rcases c with ⟨n, a⟩
      rcases List.mem_cons.mp hb with hb | hb
      · subst hb; rfl
      · exact ih (i + 1) b hb

/-- Appending text to a content list without text blocks pushes a new text
block at the end. -/
lemma addTextToContent_all_tools (l : List ABlockOut) (s : String)
    (h : ∀ b ∈ l, isToolUseBlock b = true) :
    addTextToContent l s = l ++ [.text s] := by
  induction l with
  | nil => rfl
  | cons b rest ih =>
      cases b with
      | text t =>
          exact absurd (h (ABlockOut.text t) (List.mem_cons_self _ _)) (by simp [isToolUseBlock])
      | toolUse id n a =>
          have h2 := ih (fun b hb => h b (List.mem_cons_of_mem _ hb))
          simp only [addTextToContent]
          rw [h2]
          simp

/-- Appending text through leading tool blocks lands in the first text
block. -/
lemma addTextToContent_through_tools (pre : List ABlockOut) (t s : String) (post : List ABlockOut)
    (h : ∀ b ∈ pre, isToolUseBlock b = true) :
    addTextToContent (pre ++ ABlockOut.text t :: post) s =
      pre ++ ABlockOut.text (t ++ s) :: post := by
  induction pre with
  | nil => rfl
  | cons b rest ih =>
      cases b with
      | text t2 =>
          exact absurd (h (ABlockOut.text t2) (List.mem_cons_self _ _)) (by simp [isToolUseBlock])
      | toolUse id n a =>
          have h2 := ih (fun b hb => h b (List.mem_cons_of_mem _ hb))
          simp only [List.cons_append, addTextToContent]
          exact congrArg (fun l => ABlockOut.toolUse id n a :: l) h2

/-- Adding one visible text fragment preserves the batch invariant. -/
lemma BatchInv_add_text {st : BatchState} {texts calls} (t : String)
    (h : BatchInv st texts calls) :
    BatchInv { st with content := addTextToContent st.content t } (texts ++ [t]) calls := by
  obtain ⟨hstop, hid, hc⟩ := h
  refine ⟨hstop, hid, ?_⟩
  rcases hc with ⟨hte, hcont⟩ | ⟨hne, k, hk, hcont⟩
  · right
    refine ⟨by simp, calls.length, le_refl _, ?_⟩
    subst hte
    simp only [hcont, addTextToContent_all_tools _ _ (toolBlocksFrom_all_tools calls 0)]
    simp [strConcat, List.take_of_length_le (le_refl calls.length), List.drop_of_length_le (le_refl calls.length), toolBlocksFrom]
  · right
    refine ⟨by simp, k, hk, ?_⟩
    rw [hcont, addTextToContent_through_tools _ _ _ _ (toolBlocksFrom_all_tools _ 0)]
    rw [strConcat_append]
    simp [strConcat]

/-- Adding one function call preserves the batch invariant. -/
lemma BatchInv_add_call {st : BatchState} {texts calls} (n : String) (a : JsVal)
    (h : BatchInv st texts calls) :
    BatchInv { st with
               content := st.content ++ [.toolUse st.nextToolId n a]
               nextToolId := st.nextToolId + 1 } texts (calls ++ [(n, a)]) := by
  obtain ⟨hstop, hid, hc⟩ := h
  refine ⟨hstop, by simp [hid], ?_⟩
  rcases hc with ⟨hte, hcont⟩ | ⟨hne, k, hk, hcont⟩
  · left
    refine ⟨hte, ?_⟩
    rw [hcont, hid, toolBlocksFrom_append]
    simp [toolBlocksFrom]
  · right
    refine ⟨hne, k, by simp; omega, ?_⟩
    rw [hcont, hid]
    rw [List.take_append_of_le_length hk, List.drop_append_of_le_length hk]
    rw [toolBlocksFrom_append]
    have hlen : k + (calls.drop k).length = calls.length := by
      simp [List.length_drop]
      omega
    rw [hlen]
    simp [toolBlocksFrom]

/-- Token-counter overwrites do not disturb the batch invariant. -/
lemma BatchInv_tokens {st : BatchState} {texts calls} (i o : Nat) (h : BatchInv st texts calls) :
    BatchInv { st with inputTokens := i, outputTokens := o } texts calls :=
  ⟨h.1, h.2.1, h.2.2⟩

/-- The `finishReason === "STOP"` re-assignment keeps the initial stop
reason. -/
lemma BatchInv_stop_end {st : BatchState} {texts calls} (h : BatchInv st texts calls) :
    BatchInv { st with stopReason := "end_turn" } texts calls :=
  ⟨rfl, h.2.1, h.2.2⟩

/-- One part's processing extends the batch invariant by the fragments and
calls it contributes. -/
lemma batchPart_inv {st : BatchState} {texts calls} (p : RespPart) (h : BatchInv st texts calls) :
    BatchInv (batchPart st p) (texts ++ partTexts p) (calls ++ partCalls p) := by
  rcases p with ⟨t, th, sig, fc⟩
  have hstep1 : BatchInv (match t with
      | some tt => if !sig then { st with content := addTextToContent st.content tt } else st
      | none => st) (texts ++ partTexts ⟨t, th, sig, fc⟩) calls := by
    cases t with
    | none => simpa [partTexts] using h
    | some tt =>
        by_cases hsig : sig = true
        · simpa [partTexts, hsig] using h
        · have hb : sig = false := by simpa using hsig
          simpa [partTexts, hb] using BatchInv_add_text tt h
  cases fc with
  | none => simpa [batchPart, partCalls] using hstep1
  | some f =>
      have h2 := BatchInv_add_call f.name (jsOr f.args (.jobj [])) hstep1
      simpa [batchPart, partCalls] using h2

/-- A part list's processing extends the batch invariant by everything it
contributes. -/
lemma batchParts_inv (l : List RespPart) : ∀ {st texts calls}, BatchInv st texts calls →
    BatchInv (l.foldl batchPart st) (texts ++ l.flatMap partTexts)
      (calls ++ l.flatMap partCalls) := by
  induction l with
  | nil => intro st texts calls h; simpa using h
  | cons p rest ih =>
      intro st texts calls h
      have h2 := ih (batchPart_inv p h)
      simpa [List.append_assoc] using h2

/-- One parsed event's processing extends the batch invariant by its
parts' contributions. -/
lemma batchChunk_inv {st : BatchState} {texts calls} (c : GChunk) (h : BatchInv st texts calls) :
    BatchInv (batchChunk st c) (texts ++ (partsOfChunk c).flatMap partTexts)
      (calls ++ (partsOfChunk c).flatMap partCalls) := by
  rcases c with ⟨resp⟩
  cases resp with
  | none => simpa [batchChunk, partsOfChunk] using h
  | some r =>
      rcases r with ⟨cands, usage⟩
      cases hh : cands.head? with
      | none =>
          cases usage <;>
            simpa [batchChunk, partsOfChunk, hh] using (⟨h.1, h.2.1, h.2.2⟩ : BatchInv _ _ _)
      | some cand =>
          cases hp : cand.parts with
          | none =>
              cases usage <;>
                simpa [batchChunk, partsOfChunk, hh, hp] using (⟨h.1, h.2.1, h.2.2⟩ : BatchInv _ _ _)
          | some parts =>
              have hfold := batchParts_inv parts h
              have hfr : BatchInv (match cand.finishReason with
                  | some fr => if fr == "STOP" then
                        { parts.foldl batchPart st with stopReason := "end_turn" }
                      else parts.foldl batchPart st
                  | none => parts.foldl batchPart st)
                  (texts ++ parts.flatMap partTexts) (calls ++ parts.flatMap partCalls) := by
                cases cand.finishReason with
                | none => exact hfold
                | some fr =>
                    by_cases hstop : (fr == "STOP") = true
                    · simpa [hstop] using BatchInv_stop_end hfold
                    · simpa [hstop] using hfold
              cases usage with
              | none => simpa [batchChunk, partsOfChunk, hh, hp] using hfr
              | some u =>
                  simpa [batchChunk, partsOfChunk, hh, hp] using
                    BatchInv_tokens (u.promptTokenCount.getD 0)
                      (u.candidatesTokenCount.getD 0 + u.thoughtsTokenCount.getD 0) hfr

/-- The whole event list's processing establishes the batch invariant for
all visible fragments and calls. -/
lemma batchChunks_inv (chunks : List GChunk) : ∀ {st texts calls}, BatchInv st texts calls →
    BatchInv (chunks.foldl batchChunk st) (texts ++ visibleTexts chunks)
      (calls ++ fnCalls chunks) := by
  induction chunks with
  | nil => intro st texts calls h; simpa [visibleTexts, fnCalls] using h
  | cons c rest ih =>
      intro st texts calls h
      have h2 := ih (batchChunk_inv c h)
      simpa [visibleTexts, fnCalls, List.append_assoc] using h2

/-- Part processing never touches the token counters. -/
lemma batchPart_tokens (st : BatchState) (p : RespPart) :
    (batchPart st p).inputTokens = st.inputTokens ∧
    (batchPart st p).outputTokens = st.outputTokens := by
  rcases p with ⟨t, th, sig, fc⟩
  cases t <;> cases fc <;> by_cases hsig : sig = true <;> simp [batchPart, hsig]

/-- Part-list processing never touches the token counters. -/
lemma batchParts_tokens (l : List RespPart) : ∀ st : BatchState,
    (l.foldl batchPart st).inputTokens = st.inputTokens ∧
    (l.foldl batchPart st).outputTokens = st.outputTokens := by
  induction l with
  | nil => intro st; exact ⟨rfl, rfl⟩
  | cons p rest ih =>
      intro st
      obtain ⟨h1, h2⟩ := ih (batchPart st p)
      obtain ⟨h3, h4⟩ := batchPart_tokens st p
      simp only [List.foldl_cons]
      exact ⟨h1.trans h3, h2.trans h4⟩

/-- One parsed event overwrites the counters exactly when it carries usage
metadata. -/
lemma batchChunk_tokens (st : BatchState) (c : GChunk) :
    ((batchChunk st c).inputTokens, (batchChunk st c).outputTokens) =
      match usageOf c with
      | some u => (u.promptTokenCount.getD 0,
                   u.candidatesTokenCount.getD 0 + u.thoughtsTokenCount.getD 0)
      | none => (st.inputTokens, st.outputTokens) := by
  rcases c with ⟨resp⟩
  cases resp with
  | none => simp [batchChunk, usageOf]
  | some r =>
      rcases r with ⟨cands, usage⟩
      cases hh : cands.head? with
      | none => cases usage <;> simp [batchChunk, usageOf, hh]
      | some cand =>
          cases hp : cand.parts with
          | none => cases usage <;> simp [batchChunk, usageOf, hh, hp]
          | some parts =>
              obtain ⟨h1, h2⟩ := batchParts_tokens parts st
              cases usage with
              | none =>
                  cases hfr : cand.finishReason with
                  | none => simp [batchChunk, usageOf, hh, hp, hfr, h1, h2]
                  | some fr =>
                      by_cases hstop : (fr == "STOP") = true <;>
                        simp [batchChunk, usageOf, hh, hp, hfr, hstop, h1, h2]
              | some u => simp [batchChunk, usageOf, hh, hp]

/-- The final counters come from the last observed usage metadata. -/
lemma batch_usage (chunks : List GChunk) : ∀ st : BatchState,
    ((chunks.foldl batchChunk st).inputTokens, (chunks.foldl batchChunk st).outputTokens) =
      match lastUsage chunks with
      | some u => (u.promptTokenCount.getD 0,
                   u.candidatesTokenCount.getD 0 + u.thoughtsTokenCount.getD 0)
      | none => (st.inputTokens, st.outputTokens) := by
  induction chunks with
  | nil => intro st; simp [lastUsage]
  | cons c rest ih =>
      intro st
      simp only [List.foldl_cons, lastUsage]
      cases hl : lastUsage rest with
      | some u =>
          have h2 := ih (batchChunk st c)
          rw [hl] at h2
          exact h2
      | none =>
          have h2 := ih (batchChunk st c)
          rw [hl] at h2
          rw [h2]
          exact batchChunk_tokens st c

/-- Rendering is empty exactly for the empty call list. -/
lemma toolBlocksFrom_eq_nil_iff (l : List (String × JsVal)) (i : Nat) :
    toolBlocksFrom i l = [] ↔ l = [] := by
  cases l with
  | nil => simp [toolBlocksFrom]
  | cons c rest => rcases c with ⟨n, a⟩; simp [toolBlocksFrom]

/-- A rendered call list holds a tool-use block exactly when it is
non-empty. -/
lemma toolBlocksFrom_any (l : List (String × JsVal)) (i : Nat) :
    (toolBlocksFrom i l).any isToolUseBlock = !l.isEmpty := by
  cases l with
  | nil => simp [toolBlocksFrom]
  | cons c rest => rcases c with ⟨n, a⟩; simp [toolBlocksFrom, isToolUseBlock]

/-- C5: for every full backend event sequence the batch translator
concatenates all externally-visible text fragments (the source identifies
internal-reasoning text by the thought-signature marker) into a single
text block at its first-encounter position, renders every function call
as its own tool-use block with a fresh counter id in encounter order,
sets stop_reason to "tool_use" iff a tool-use block exists and "end_turn"
otherwise, substitutes one empty text block when no content block
resulted, and reports usage from the last observed cumulative usage
metadata. -/
theorem C5_batch_translation (chunks : List GChunk) (m : String) :
    (convertGoogleSSEToAnthropicStream chunks m).model = m ∧
    (visibleTexts chunks = [] → fnCalls chunks = [] →
      (convertGoogleSSEToAnthropicStream chunks m).content = [.text ""]) ∧
    (visibleTexts chunks = [] → fnCalls chunks ≠ [] →
      (convertGoogleSSEToAnthropicStream chunks m).content = toolBlocksFrom 0 (fnCalls chunks)) ∧
    (visibleTexts chunks ≠ [] → ∃ k, k ≤ (fnCalls chunks).length ∧
      (convertGoogleSSEToAnthropicStream chunks m).content =
        toolBlocksFrom 0 ((fnCalls chunks).take k) ++
          ABlockOut.text (strConcat (visibleTexts chunks)) ::
            toolBlocksFrom k ((fnCalls chunks).drop k)) ∧
    (convertGoogleSSEToAnthropicStream chunks m).stop_reason =
      (if (fnCalls chunks).isEmpty then "end_turn" else "tool_use") ∧
    ((convertGoogleSSEToAnthropicStream chunks m).input_tokens,
     (convertGoogleSSEToAnthropicStream chunks m).output_tokens) =
      (match lastUsage chunks with
       | some u => (u.promptTokenCount.getD 0,
                    u.candidatesTokenCount.getD 0 + u.thoughtsTokenCount.getD 0)
       | none => (0, 0)) := by
  have hinv0 : BatchInv ⟨[], 0, 0, 0, "end_turn"⟩ [] [] := ⟨rfl, rfl, Or.inl ⟨rfl, rfl⟩⟩
  have hinv := batchChunks_inv chunks hinv0
  simp only [List.nil_append] at hinv
  obtain ⟨hstop, hid, hc⟩ := hinv
  have hcontent : (convertGoogleSSEToAnthropicStream chunks m).content =
      (if (chunks.foldl batchChunk ⟨[], 0, 0, 0, "end_turn"⟩).content.isEmpty
       then [ABlockOut.text ""]
       else (chunks.foldl batchChunk ⟨[], 0, 0, 0, "end_turn"⟩).content) := rfl
  have hstopr : (convertGoogleSSEToAnthropicStream chunks m).stop_reason =
      (if (chunks.foldl batchChunk ⟨[], 0, 0, 0, "end_turn"⟩).content.any isToolUseBlock
       then "tool_use"
       else (chunks.foldl batchChunk ⟨[], 0, 0, 0, "end_turn"⟩).stopReason) := rfl
  have hani : (chunks.foldl batchChunk ⟨[], 0, 0, 0, "end_turn"⟩).content.any isToolUseBlock =
      !(fnCalls chunks).isEmpty := by
    rcases hc with ⟨hte, hcont⟩ | ⟨hne, k, hk, hcont⟩
    · rw [hcont, toolBlocksFrom_any]
    · rw [hcont]
      simp only [List.any_append, List.any_cons, isToolUseBlock, toolBlocksFrom_any]
      cases hfc : fnCalls chunks with
      | nil =>
          have : k = 0 := by
            rw [hfc] at hk; simpa using hk
          simp [this, hfc]
      | cons c r =>
          rcases Nat.eq_zero_or_pos k with hk0 | hk0
          · subst hk0
            simp
          · have h3 : ((c :: r).take k).isEmpty = false := by
              cases k with
              | zero => omega
              | succ k2 => simp [List.take]
            simp [h3]
  refine ⟨rfl, ?_, ?_, ?_, ?_, ?_⟩
  · intro hvt hfc
    rcases hc with ⟨_, hcont⟩ | ⟨hne, _⟩
    · rw [hcontent, hcont, hfc]
      simp [toolBlocksFrom]
    · exact absurd hvt hne
  · intro hvt hfc
    rcases hc with ⟨_, hcont⟩ | ⟨hne, _⟩
    · rw [hcontent, hcont]
      have : (toolBlocksFrom 0 (fnCalls chunks)).isEmpty = false := by
        cases hfc2 : fnCalls chunks with
        | nil => exact absurd hfc2 hfc
        | cons c r => rcases c with ⟨n, a⟩; simp [toolBlocksFrom]
      simp [this]
    · exact absurd hvt hne
  · intro hvt
    rcases hc with ⟨hte, _⟩ | ⟨hne, k, hk, hcont⟩
    · exact absurd hte hvt
    · refine ⟨k, hk, ?_⟩
      rw [hcontent, hcont]
      have : (toolBlocksFrom 0 ((fnCalls chunks).take k) ++
          ABlockOut.text (strConcat (visibleTexts chunks)) ::
            toolBlocksFrom k ((fnCalls chunks).drop k)).isEmpty = false := by
        simp
      simp [this]
  · rw [hstopr, hani, hstop]
    cases (fnCalls chunks).isEmpty <;> simp
  · have h2 := batch_usage chunks ⟨[], 0, 0, 0, "end_turn"⟩
    exact h2

/-- Witness for C5: an empty event list yields the substituted empty text
block, and a text-then-function-call stream closes with stop_reason
"tool_use". -/
theorem C5_batch_translation_witness :
    (convertGoogleSSEToAnthropicStream [] "m").content = [.text ""] ∧
    (convertGoogleSSEToAnthropicStream [textChunk, fcChunk] "m").stop_reason = "tool_use" := by
  refine ⟨(C5_batch_translation [] "m").2.1 rfl rfl, ?_⟩
  have h := (C5_batch_translation [textChunk, fcChunk] "m").2.2.2.2.1
  rw [h]
  rfl

/-- Members of a JS assignment are old members or the assigned pair. -/
lemma mem_oset {l : List (String × JsVal)} {k : String} {v : JsVal} {p : String × JsVal}
    (h : p ∈ oset l k v) : p ∈ l ∨ p = (k, v) := by
  unfold oset at h
  split at h
  · rcases List.mem_map.mp h with ⟨q, hq, hpq⟩
    by_cases hqk : (q.1 == k) = true
    · right; rw [← hpq]; simp [hqk]
    · left; rw [← hpq]; simpa [hqk] using hq
  · rcases List.mem_append.mp h with h | h
    · exact Or.inl h
    · right; simpa using h

/-- Members of `Object.fromEntries` come from the entry list. -/
lemma mem_fromEntries {l : List (String × JsVal)} {p : String × JsVal}
    (h : p ∈ fromEntries l) : p ∈ l := by
  have aux : ∀ (l2 : List (String × JsVal)) (acc : List (String × JsVal)),
      p ∈ l2.foldl (fun acc q => oset acc q.1 q.2) acc → p ∈ acc ∨ p ∈ l2 := by
    intro l2
    induction l2 with
    | nil => intro acc h2; exact Or.inl h2
    | cons q rest ih =>
        intro acc h2
        rcases ih (oset acc q.1 q.2) h2 with h3 | h3
        · rcases mem_oset h3 with h4 | h4
          · exact Or.inl h4
          · right
            rw [h4]
            exact List.mem_cons_self _ _
        · right; exact List.mem_cons_of_mem _ h3
  rcases aux l [] h with h2 | h2
  · simp at h2
  · exact h2

/-- Looking up the overwritten key in the mapped (assignment) list. -/
lemma oget_map_set (k : String) (v : JsVal) (l : List (String × JsVal)) :
    oget k (l.map (fun p => if p.1 == k then (k, v) else p)) =
      (if l.any (fun p => p.1 == k) then some v else oget k l) := by
  induction l with
  | nil => simp [oget]
  | cons q rest ih =>
      by_cases hq : (q.1 == k) = true
      · rw [List.map_cons, if_pos hq]
        simp [oget, hq]
      · rw [List.map_cons, if_neg hq]
        simp only [oget, List.any_cons, hq, Bool.false_or, if_neg]
        simp only [hq, if_neg, Bool.false_eq_true, if_false]
        simpa using ih

/-- Looking up another key in the mapped (assignment) list. -/
lemma oget_map_set_ne (k k2 : String) (v : JsVal) (l : List (String × JsVal))
    (hne : (k == k2) = false) :
    oget k2 (l.map (fun p => if p.1 == k then (k, v) else p)) = oget k2 l := by
  induction l with
  | nil => rfl
  | cons q rest ih =>
      by_cases hq : (q.1 == k) = true
      · rw [List.map_cons, if_pos hq]
        have hqk : q.1 = k := by simpa using hq
        have hq2 : (q.1 == k2) = false := by rw [hqk]; exact hne
        simp only [oget, hne, hq2, Bool.false_eq_true, if_false]
        simpa using ih
      · rw [List.map_cons, if_neg hq]
        by_cases hq2 : (q.1 == k2) = true
        · simp [oget, hq2]
        · simp only [oget, show (q.1 == k2) = false by simpa using hq2,
            Bool.false_eq_true, if_false]
          simpa using ih

/-- Looking up the appended key when it was absent. -/
lemma oget_append_single (l : List (String × JsVal)) (k : String) (v : JsVal)
    (h : l.any (fun p => p.1 == k) = false) :
    oget k (l ++ [(k, v)]) = some v := by
  induction l with
  | nil => simp [oget]
  | cons q rest ih =>
      have h2 : (q.1 == k) = false ∧ rest.any (fun p => p.1 == k) = false := by
        simpa using h
      simp only [List.cons_append, oget, h2.1]
      simpa using ih h2.2

/-- Looking up another key past an appended pair. -/
lemma oget_append_single_ne (l : List (String × JsVal)) (k k2 : String) (v : JsVal)
    (hne : (k == k2) = false) :
    oget k2 (l ++ [(k, v)]) = oget k2 l := by
  induction l with
  | nil => simp [oget, hne]
  | cons q rest ih =>
      by_cases hq2 : (q.1 == k2) = true
      · simp [oget, hq2]
      · simp [oget, hq2, ih]

/-- Reading back the just-assigned key. -/
lemma oget_oset_self (l : List (String × JsVal)) (k : String) (v : JsVal) :
    oget k (oset l k v) = some v := by
  unfold oset
  split
  · rename_i hany
    rw [oget_map_set]
    simp [hany]
  · rename_i hany
    exact oget_append_single l k v (by revert hany; cases l.any (fun p => p.1 == k) <;> simp)

/-- Reading a different key through a JS assignment. -/
lemma oget_oset_ne (l : List (String × JsVal)) (k k2 : String) (v : JsVal) (h : k2 ≠ k) :
    oget k2 (oset l k v) = oget k2 l := by
  have hne : (k == k2) = false := by
    simp only [beq_eq_false_iff_ne, ne_eq]
    exact fun hh => h hh.symm
  unfold oset
  split
  · exact oget_map_set_ne k k2 v l hne
  · exact oget_append_single_ne l k k2 v hne

/-- Unfolding equation for the ensure field walk (cons case). -/
lemma ensureFields_cons (k : String) (v : JsVal) (rest : List (String × JsVal)) :
    ensureFields ((k, v) :: rest) = (k, ensureFieldVal k v) :: ensureFields rest := by
  rw [ensureFields.eq_def]
  rfl

/-- Unfolding equation for the ensure field walk (nil case). -/
lemma ensureFields_nil : ensureFields [] = [] := by
  rw [ensureFields.eq_def]

/-- Unfolding equation for the ensure array map (cons case). -/
lemma ensureList_cons (x : JsVal) (xs : List JsVal) :
    ensureList (x :: xs) = ensureSchemaType x :: ensureList xs := by
  rw [ensureList.eq_def]

/-- Unfolding equation for the ensure array map (nil case). -/
lemma ensureList_nil : ensureList [] = [] := by
  rw [ensureList.eq_def]

/-- Unfolding equation for the ensure properties map (cons case). -/
lemma ensureEntryVals_cons (k : String) (v : JsVal) (rest : List (String × JsVal)) :
    ensureEntryVals ((k, v) :: rest) = (k, ensureSchemaType v) :: ensureEntryVals rest := by
  rw [ensureEntryVals.eq_def]

/-- Unfolding equation for the ensure properties map (nil case). -/
lemma ensureEntryVals_nil : ensureEntryVals [] = [] := by
  rw [ensureEntryVals.eq_def]

/-- Unfolding equation for `ensureSchemaType` on an object. -/
lemma ensureSchemaType_obj (o : List (String × JsVal)) :
    ensureSchemaType (.jobj o) =
      (if otruthy (oget "type" o) then .jobj (ensureFields o)
       else .jobj (oset (ensureFields o) "type" (.jstr (inferTypeStr o)))) := by
  rw [ensureSchemaType.eq_def]

/-- Unfolding equation for `ensureSchemaType` on an array. -/
lemma ensureSchemaType_arr (xs : List JsVal) :
    ensureSchemaType (.jarr xs) = .jarr (ensureList xs) := by
  rw [ensureSchemaType.eq_def]

/-- A successful lookup returns a stored value. -/
lemma oget_mem {o : List (String × JsVal)} {k : String} {v : JsVal} (h : oget k o = some v) :
    ∃ k2, (k2, v) ∈ o := by
  induction o with
  | nil => simp [oget] at h
  | cons q rest ih =>
      rcases q with ⟨qk, qv⟩
      by_cases hq : (qk == k) = true
      · simp only [oget, hq, if_true] at h
        refine ⟨qk, ?_⟩
        have hv : qv = v := by injection h
        rw [← hv]
        exact List.mem_cons_self _ _
      · simp only [oget, hq, Bool.false_eq_true, if_false] at h
        obtain ⟨k2, hk2⟩ := ih h
        exact ⟨k2, List.mem_cons_of_mem _ hk2⟩

/-- A looked-up value is smaller than its containing object. -/
lemma oget_sizeOf {o : List (String × JsVal)} {k : String} {v : JsVal} (h : oget k o = some v) :
    sizeOf v < sizeOf (JsVal.jobj o) := by
  obtain ⟨k2, hm⟩ := oget_mem h
  have h1 := List.sizeOf_lt_of_mem hm
  simp only [Prod.mk.sizeOf_spec] at h1
  simp only [JsVal.jobj.sizeOf_spec]
  omega

/-- The field walk of `ensureSchemaType` preserves the key list. -/
lemma ensureFields_keys {o : List (String × JsVal)} {p : String × JsVal}
    (h : p ∈ ensureFields o) : ∃ q ∈ o, p.1 = q.1 := by
  induction o with
  | nil => rw [ensureFields_nil] at h; simp at h
  | cons q rest ih =>
      rcases q with ⟨qk, qv⟩
      rw [ensureFields_cons] at h
      rcases List.mem_cons.mp h with h2 | h2
      · exact ⟨(qk, qv), List.mem_cons_self _ _, by rw [h2]⟩
      · obtain ⟨q2, hq2, hk⟩ := ih h2
        exact ⟨q2, List.mem_cons_of_mem _ hq2, hk⟩

/-- The field-value walk does not touch keys other than `properties` and
`items`. -/
lemma ensureFieldVal_other (k : String) (v : JsVal)
    (h1 : (k == "properties") = false) (h2 : (k == "items") = false) :
    ensureFieldVal k v = v := by
  simp [ensureFieldVal, h1, h2]

/-- The field walk leaves values at keys other than `properties` and
`items` unchanged. -/
lemma oget_ensureFields_other (o : List (String × JsVal)) (k : String)
    (h1 : k ≠ "properties") (h2 : k ≠ "items") :
    oget k (ensureFields o) = oget k o := by
  induction o with
  | nil => rw [ensureFields_nil]
  | cons q rest ih =>
      rcases q with ⟨qk, qv⟩
      rw [ensureFields_cons]
      by_cases hq : (qk == k) = true
      · have hqk : qk = k := by simpa using hq
        have hp : (qk == "properties") = false := by
          simp only [beq_eq_false_iff_ne, ne_eq, hqk]; exact h1
        have hi : (qk == "items") = false := by
          simp only [beq_eq_false_iff_ne, ne_eq, hqk]; exact h2
        simp only [oget, hq, if_true, ensureFieldVal_other qk qv hp hi]
      · simp only [oget, hq, Bool.false_eq_true, if_false]
        exact ih

/-- The field walk rewrites the `properties` value as the source does. -/
lemma oget_ensureFields_props (o : List (String × JsVal)) :
    oget "properties" (ensureFields o) =
      (oget "properties" o).map (fun w =>
        match w with
        | .jobj ps => .jobj (ensureEntryVals ps)
        | .jarr xs => .jobj (indexKeys 0 (ensureList xs))
        | w => w) := by
  induction o with
  | nil => rw [ensureFields_nil]; rfl
  | cons q rest ih =>
      rcases q with ⟨qk, qv⟩
      rw [ensureFields_cons]
      by_cases hq : (qk == "properties") = true
      · simp only [oget, hq, if_true, Option.map_some]
        rw [show ensureFieldVal qk qv = (match qv with
          | JsVal.jobj ps => JsVal.jobj (ensureEntryVals ps)
          | JsVal.jarr xs => JsVal.jobj (indexKeys 0 (ensureList xs))
          | w => w) from by simp [ensureFieldVal, hq]]
        rfl
      · simp only [oget, hq, Bool.false_eq_true, if_false]
        exact ih

/-- The field walk rewrites the `items` value as the source does. -/
lemma oget_ensureFields_items (o : List (String × JsVal)) :
    oget "items" (ensureFields o) =
      (oget "items" o).map (fun v => if v.truthy then ensureSchemaType v else v) := by
  induction o with
  | nil => rw [ensureFields_nil]; rfl
  | cons q rest ih =>
      rcases q with ⟨qk, qv⟩
      rw [ensureFields_cons]
      by_cases hqi : (qk == "items") = true
      · have hqp : (qk == "properties") = false := by
          have : qk = "items" := by simpa using hqi
          simp [this]
        simp only [oget, hqi, if_true, Option.map_some]
        rw [show ensureFieldVal qk qv = (if qv.truthy then ensureSchemaType qv else qv) from by
          simp [ensureFieldVal, hqp, hqi]]
        rfl
      · simp only [oget, hqi, Bool.false_eq_true, if_false]
        exact ih

/-- Members of the mapped array ensure-pass. -/
lemma ensureList_mem {xs : List JsVal} {y : JsVal} (h : y ∈ ensureList xs) :
    ∃ x ∈ xs, y = ensureSchemaType x := by
  induction xs with
  | nil => rw [ensureList_nil] at h; simp at h
  | cons x rest ih =>
      rw [ensureList_cons] at h
      rcases List.mem_cons.mp h with h2 | h2
      · exact ⟨x, List.mem_cons_self _ _, h2⟩
      · obtain ⟨x2, hx2, he⟩ := ih h2
        exact ⟨x2, List.mem_cons_of_mem _ hx2, he⟩

/-- Members of the mapped properties entries. -/
lemma ensureEntryVals_mem {ps : List (String × JsVal)} {p : String × JsVal}
    (h : p ∈ ensureEntryVals ps) : ∃ q ∈ ps, p = (q.1, ensureSchemaType q.2) := by
  induction ps with
  | nil => rw [ensureEntryVals_nil] at h; simp at h
  | cons q rest ih =>
      rcases q with ⟨qk, qv⟩
      rw [ensureEntryVals_cons] at h
      rcases List.mem_cons.mp h with h2 | h2
      · exact ⟨(qk, qv), List.mem_cons_self _ _, h2⟩
      · obtain ⟨q2, hq2, he⟩ := ih h2
        exact ⟨q2, List.mem_cons_of_mem _ hq2, he⟩

/-- Values of index-keyed entries come from the element list. -/
lemma indexKeys_mem {l : List JsVal} {p : String × JsVal} : ∀ i, p ∈ indexKeys i l → p.2 ∈ l := by
  induction l with
  | nil => intro i h; simp [indexKeys] at h
  | cons x rest ih =>
      intro i h
      rw [show indexKeys i (x :: rest) = (toString i, x) :: indexKeys (i + 1) rest from rfl] at h
      rcases List.mem_cons.mp h with h2 | h2
      · rw [h2]
        exact List.mem_cons_self _ _
      · exact List.mem_cons_of_mem _ (ih (i + 1) h2)

/-- The inferred default type is always a non-empty string. -/
lemma inferTypeStr_truthy (o : List (String × JsVal)) :
    JsVal.truthy (.jstr (inferTypeStr o)) = true := by
  unfold inferTypeStr
  split
  · rfl
  split
  · rfl
  split
  · rfl
  · rfl

/-- Inversion of a successful `Except` bind. -/
lemma except_bind_ok {α β : Type} {x : Except Unit α} {f : α → Except Unit β} {out : β}
    (h : (x >>= f) = .ok out) : ∃ a, x = .ok a ∧ f a = .ok out := by
  cases x with
  | error e => simp [Bind.bind, Except.bind] at h
  | ok a => exact ⟨a, rfl, by simpa [Bind.bind, Except.bind] using h⟩

/-- Scalar values have no schema sub-positions: every reachable node is
the value itself. -/
lemma keysAllowedAt_scalar {j : JsVal} (h : ∀ o, j ≠ .jobj o) (h2 : ∀ xs, j ≠ .jarr xs) :
    KeysAllowedAt j := by
  intro n hpos o hno
  cases hpos with
  | refl => exact absurd hno (h o)
  | arrElem hmem hsub => exact absurd rfl (h2 _)
  | propVal hget hmem hsub => exact absurd rfl (h _)
  | propArrElem hget hmem hsub => exact absurd rfl (h _)
  | itemsVal hget hsub => exact absurd rfl (h _)

/-- Every object node reachable in a `sanitizeSchema` output carries only
allowed keys (mutually with the list-shaped helpers, by induction on the
fuel). -/
lemma sanitize_keys : ∀ fuel : Nat,
    (∀ s out, sanitizeSchema fuel s = .ok out → KeysAllowedAt out) ∧
    (∀ l out, sanitizeFields fuel l = .ok out → KeysAllowedAt (.jobj out)) ∧
    (∀ l out, sanitizeEntries fuel l = .ok out → ∀ p ∈ out, KeysAllowedAt p.2) ∧
    (∀ xs out, sanitizeList fuel xs = .ok out → ∀ y ∈ out, KeysAllowedAt y) := by
  intro fuel
  induction fuel with
  | zero =>
      refine ⟨?_, ?_, ?_, ?_⟩ <;> intro a b h <;>
        first
          | (rw [sanitizeSchema.eq_def] at h; simp at h)
          | (rw [sanitizeFields.eq_def] at h; simp at h)
          | (rw [sanitizeEntries.eq_def] at h; simp at h)
          | (rw [sanitizeList.eq_def] at h; simp at h)
  | succ fuel ih =>
      obtain ⟨ihS, ihF, ihE, ihL⟩ := ih
      refine ⟨?_, ?_, ?_, ?_⟩
      · -- sanitizeSchema
        intro s out h
        rw [sanitizeSchema.eq_def] at h
        cases s with
        | jobj o =>
            simp only at h
            obtain ⟨working, hw, h2⟩ := except_bind_ok h
            obtain ⟨clean, hclean, h3⟩ := except_bind_ok h2
            have hout : out = .jobj clean := by
              simpa [pure, Except.pure] using h3.symm
            rw [hout]
            exact ihF working clean hclean
        | jarr xs =>
            simp only at h
            obtain ⟨ys, hys, h2⟩ := except_bind_ok h
            have hout : out = .jarr ys := by
              simpa [pure, Except.pure] using h2.symm
            rw [hout]
            intro n hpos o hno
            cases hpos with
            | refl => simp at hno
            | arrElem hmem hsub => exact ihL xs ys hys _ hmem _ hsub o hno
        | jnull =>
            have hout : out = .jnull := by simpa [pure, Except.pure] using h.symm
            rw [hout]
            exact keysAllowedAt_scalar (by intro o hc; cases hc) (by intro xs hc; cases hc)
        | jbool b =>
            have hout : out = .jbool b := by simpa [pure, Except.pure] using h.symm
            rw [hout]
            exact keysAllowedAt_scalar (by intro o hc; cases hc) (by intro xs hc; cases hc)
        | jnum n2 =>
            have hout : out = .jnum n2 := by simpa [pure, Except.pure] using h.symm
            rw [hout]
            exact keysAllowedAt_scalar (by intro o hc; cases hc) (by intro xs hc; cases hc)
        | jstr s2 =>
            have hout : out = .jstr s2 := by simpa [pure, Except.pure] using h.symm
            rw [hout]
            exact keysAllowedAt_scalar (by intro o hc; cases hc) (by intro xs hc; cases hc)
      · -- sanitizeFields
        intro l out h
        rw [sanitizeFields.eq_def] at h
        cases l with
        | nil =>
            have hout : out = [] := by simpa [pure, Except.pure] using h.symm
            rw [hout]
            intro n hpos o hno
            cases hpos with
            | refl =>
                injection hno with hno2
                rw [← hno2]
                intro p hp
                simp at hp
            | propVal hget hmem hsub => simp [oget] at hget
            | propArrElem hget hmem hsub => simp [oget] at hget
            | itemsVal hget hsub => simp [oget] at hget
        | cons q rest =>
            rcases q with ⟨k, v⟩
            simp only at h
            by_cases hc : ALLOWED_SCHEMA_FIELDS.contains k = true
            · have hkmem : k ∈ ALLOWED_SCHEMA_FIELDS := by simpa using hc
              rw [if_pos hc] at h
              by_cases hpv : (k == "properties" && v.typeofObject) = true
              · rw [if_pos hpv] at h
                have hkprop : k = "properties" := by
                  have := (Bool.and_eq_true _ _).mp hpv
                  simpa using this.1
                have htyv : v.typeofObject = true := ((Bool.and_eq_true _ _).mp hpv).2
                obtain ⟨entries, hent, h2⟩ := except_bind_ok h
                obtain ⟨mapped, hmap, h3⟩ := except_bind_ok h2
                obtain ⟨tail, htail, h4⟩ := except_bind_ok h3
                have hout : out = (k, .jobj (fromEntries mapped)) :: tail := by
                  simpa [pure, Except.pure] using h4.symm
                rw [hout]
                have htailKA := ihF rest tail htail
                intro n hpos o hno
                cases hpos with
                | refl =>
                    injection hno with hno2
                    subst hno2
                    intro p hp
                    rcases List.mem_cons.mp hp with hp2 | hp2
                    · rw [hp2]; exact hkmem
                    · exact htailKA (.jobj tail) (SchemaPos.refl _) tail rfl p hp2
                | propVal hget hmem hsub =>
                    rename_i ps k2 v2
                    rw [show oget "properties" ((k, JsVal.jobj (fromEntries mapped)) :: tail) =
                        some (.jobj (fromEntries mapped)) from by
                      simp [oget, hkprop]] at hget
                    injection hget with hget2
                    injection hget2 with hget3
                    rw [← hget3] at hmem
                    exact ihE entries mapped hmap _ (mem_fromEntries hmem) _ hsub _ hno
                | propArrElem hget hmem hsub =>
                    rw [show oget "properties" ((k, JsVal.jobj (fromEntries mapped)) :: tail) =
                        some (.jobj (fromEntries mapped)) from by
                      simp [oget, hkprop]] at hget
                    simp at hget
                | itemsVal hget hsub =>
                    rw [show oget "items" ((k, JsVal.jobj (fromEntries mapped)) :: tail) =
                        oget "items" tail from by
                      simp [oget, hkprop]] at hget
                    exact htailKA _ (SchemaPos.itemsVal hget hsub) _ hno
              · rw [if_neg hpv] at h
                by_cases hki : (k == "items") = true
                · have hkit : k = "items" := by simpa using hki
                  rw [if_pos hki] at h
                  obtain ⟨v2, hv2, h2⟩ := except_bind_ok h
                  obtain ⟨tail, htail, h3⟩ := except_bind_ok h2
                  have hout : out = (k, v2) :: tail := by
                    simpa [pure, Except.pure] using h3.symm
                  rw [hout]
                  have htailKA := ihF rest tail htail
                  intro n hpos o hno
                  cases hpos with
                  | refl =>
                      injection hno with hno2
                      subst hno2
                      intro p hp
                      rcases List.mem_cons.mp hp with hp2 | hp2
                      · rw [hp2]; exact hkmem
                      · exact htailKA (.jobj tail) (SchemaPos.refl _) tail rfl p hp2
                  | propVal hget hmem hsub =>
                      rw [show oget "properties" ((k, v2) :: tail) = oget "properties" tail from by
                        simp [oget, hkit]] at hget
                      exact htailKA _ (SchemaPos.propVal hget hmem hsub) _ hno
                  | propArrElem hget hmem hsub =>
                      rw [show oget "properties" ((k, v2) :: tail) = oget "properties" tail from by
                        simp [oget, hkit]] at hget
                      exact htailKA _ (SchemaPos.propArrElem hget hmem hsub) _ hno
                  | itemsVal hget hsub =>
                      rw [show oget "items" ((k, v2) :: tail) = some v2 from by
                        simp [oget, hkit]] at hget
                      injection hget with hget2
                      rw [← hget2] at hsub
                      exact ihS v v2 hv2 _ hsub _ hno
                · rw [if_neg hki] at h
                  obtain ⟨tail, htail, h2⟩ := except_bind_ok h
                  have hout : out = (k, v) :: tail := by
                    simpa [pure, Except.pure] using h2.symm
                  rw [hout]
                  have htailKA := ihF rest tail htail
                  intro n hpos o hno
                  cases hpos with
                  | refl =>
                      injection hno with hno2
                      subst hno2
                      intro p hp
                      rcases List.mem_cons.mp hp with hp2 | hp2
                      · rw [hp2]; exact hkmem
                      · exact htailKA (.jobj tail) (SchemaPos.refl _) tail rfl p hp2
                  | propVal hget hmem hsub =>
                      by_cases hkp : (k == "properties") = true
                      · rw [show oget "properties" ((k, v) :: tail) = some v from by
                          simp [oget, show k = "properties" from by simpa using hkp]] at hget
                        injection hget with hget2
                        rw [hget2] at hpv
                        simp [hkp, JsVal.typeofObject] at hpv
                      · rw [show oget "properties" ((k, v) :: tail) = oget "properties" tail from by
                          simp [oget, show (k == "properties") = false from by simpa using hkp]] at hget
                        exact htailKA _ (SchemaPos.propVal hget hmem hsub) _ hno
                  | propArrElem hget hmem hsub =>
                      by_cases hkp : (k == "properties") = true
                      · rw [show oget "properties" ((k, v) :: tail) = some v from by
                          simp [oget, show k = "properties" from by simpa using hkp]] at hget
                        injection hget with hget2
                        rw [hget2] at hpv
                        simp [hkp, JsVal.typeofObject] at hpv
                      · rw [show oget "properties" ((k, v) :: tail) = oget "properties" tail from by
                          simp [oget, show (k == "properties") = false from by simpa using hkp]] at hget
                        exact htailKA _ (SchemaPos.propArrElem hget hmem hsub) _ hno
                  | itemsVal hget hsub =>
                      rw [show oget "items" ((k, v) :: tail) = oget "items" tail from by
                        simp [oget, show (k == "items") = false from by simpa using hki]] at hget
                      exact htailKA _ (SchemaPos.itemsVal hget hsub) _ hno
            · rw [if_neg hc] at h
              exact ihF rest out h
      · -- sanitizeEntries
        intro l out h
        rw [sanitizeEntries.eq_def] at h
        cases l with
        | nil =>
            have hout : out = [] := by simpa [pure, Except.pure] using h.symm
            rw [hout]
            intro p hp
            simp at hp
        | cons q rest =>
            rcases q with ⟨k, v⟩
            simp only at h
            obtain ⟨v2, hv2, h2⟩ := except_bind_ok h
            obtain ⟨tail, htail, h3⟩ := except_bind_ok h2
            have hout : out = (k, v2) :: tail := by
              simpa [pure, Except.pure] using h3.symm
            rw [hout]
            intro p hp
            rcases List.mem_cons.mp hp with hp2 | hp2
            · rw [hp2]
              exact ihS v v2 hv2
            · exact ihE rest tail htail p hp2
      · -- sanitizeList
        intro xs out h
        rw [sanitizeList.eq_def] at h
        cases xs with
        | nil =>
            have hout : out = [] := by simpa [pure, Except.pure] using h.symm
            rw [hout]
            intro y hy
            simp at hy
        | cons x rest =>
            simp only at h
            obtain ⟨y2, hy2, h2⟩ := except_bind_ok h
            obtain ⟨tail, htail, h3⟩ := except_bind_ok h2
            have hout : out = y2 :: tail := by
              simpa [pure, Except.pure] using h3.symm
            rw [hout]
            intro y hy
            rcases List.mem_cons.mp hy with hy2b | hy2b
            · rw [hy2b]
              exact ihS x y2 hy2
            · exact ihL rest tail htail y hy2b

/-- Core of the ensure-pass soundness at an object node: any field list
whose keys are allowed, whose `type` is truthy, and whose
`properties`/`items` values are the ensure-rewrites of an object with
allowed reachable keys, is node-sound. -/
lemma ensure_obj_nodeOk (N : Nat)
    (ih : ∀ j, sizeOf j ≤ N → KeysAllowedAt j → NodeOkAt (ensureSchemaType j))
    (o : List (String × JsVal)) (hsz : sizeOf (JsVal.jobj o) ≤ N + 1)
    (hka : KeysAllowedAt (.jobj o)) (out : List (String × JsVal))
    (hkeys : ∀ p ∈ out, p.1 ∈ ALLOWED_SCHEMA_FIELDS)
    (hty : otruthy (oget "type" out) = true)
    (hprops : oget "properties" out = (oget "properties" o).map (fun w =>
        match w with
        | .jobj ps => .jobj (ensureEntryVals ps)
        | .jarr xs => .jobj (indexKeys 0 (ensureList xs))
        | w => w))
    (hitems : oget "items" out = (oget "items" o).map
        (fun v => if v.truthy then ensureSchemaType v else v)) :
    NodeOkAt (.jobj out) := by
  intro n hpos o2 hno
  cases hpos with
  | refl =>
      injection hno with hno2
      subst hno2
      exact ⟨hkeys, hty⟩
  | propVal hget hmem hsub =>
      rename_i ps k2 v2
      rw [hprops] at hget
      cases hw : oget "properties" o with
      | none => rw [hw] at hget; simp at hget
      | some w =>
          rw [hw] at hget
          cases w with
          | jobj ps0 =>
              simp only [Option.map_some'] at hget
              injection hget with hget2
              injection hget2 with hget3
              rw [← hget3] at hmem
              obtain ⟨q, hq, he⟩ := ensureEntryVals_mem hmem
              have hszq : sizeOf q.2 ≤ N := by
                have h1 := oget_sizeOf hw
                have h2 := List.sizeOf_lt_of_mem hq
                rcases q with ⟨qk, qv⟩
                simp only [Prod.mk.sizeOf_spec] at h2
                simp only [JsVal.jobj.sizeOf_spec] at h1 hsz
                simp only
                omega
              have hkaq : KeysAllowedAt q.2 := by
                intro n2 hp2 o3 hno3
                exact hka n2 (SchemaPos.propVal hw (show (q.1, q.2) ∈ ps0 from hq) hp2) o3 hno3
              have hv2 : v2 = ensureSchemaType q.2 := by
                injection he
              rw [hv2] at hsub
              exact ih q.2 hszq hkaq _ hsub _ hno
          | jarr xs =>
              simp only [Option.map_some'] at hget
              injection hget with hget2
              injection hget2 with hget3
              rw [← hget3] at hmem
              have hv2mem := indexKeys_mem 0 hmem
              obtain ⟨x, hx, he⟩ := ensureList_mem hv2mem
              have hszx : sizeOf x ≤ N := by
                have h1 := oget_sizeOf hw
                have h2 := List.sizeOf_lt_of_mem hx
                simp only [JsVal.jarr.sizeOf_spec] at h1
                simp only [JsVal.jobj.sizeOf_spec] at h1 hsz
                omega
              have hkax : KeysAllowedAt x := fun n2 hp2 o3 hno3 =>
                hka n2 (SchemaPos.propArrElem hw hx hp2) o3 hno3
              have he2 : v2 = ensureSchemaType x := he
              rw [he2] at hsub
              exact ih x hszx hkax _ hsub _ hno
          | jnull => simp at hget
          | jbool b => simp at hget
          | jnum m => simp at hget
          | jstr s => simp at hget
  | propArrElem hget hmem hsub =>
      rw [hprops] at hget
      cases hw : oget "properties" o with
      | none => rw [hw] at hget; simp at hget
      | some w =>
          rw [hw] at hget
          cases w <;> simp at hget
  | itemsVal hget hsub =>
      rw [hitems] at hget
      cases hw : oget "items" o with
      | none => rw [hw] at hget; simp at hget
      | some w =>
          rw [hw] at hget
          simp only [Option.map_some'] at hget
          injection hget with hget2
          by_cases htw : w.truthy = true
          · rw [if_pos htw] at hget2
            rw [← hget2] at hsub
            have hszw : sizeOf w ≤ N := by
              have h1 := oget_sizeOf hw
              simp only [JsVal.jobj.sizeOf_spec] at h1 hsz
              omega
            have hkaw : KeysAllowedAt w := fun n2 hp2 o3 hno3 =>
              hka n2 (SchemaPos.itemsVal hw hp2) o3 hno3
            exact ih w hszw hkaw _ hsub _ hno
          · rw [if_neg htw] at hget2
            rw [← hget2] at hsub
            cases w with
            | jarr xs => simp [JsVal.truthy] at htw
            | jobj o3 => simp [JsVal.truthy] at htw
            | jnull =>
                cases hsub with
                | refl => simp at hno
            | jbool b =>
                cases hsub with
                | refl => simp at hno
            | jnum m =>
                cases hsub with
                | refl => simp at hno
            | jstr s =>
                cases hsub with
                | refl => simp at hno

/-- Scalar values are vacuously node-sound: no reachable schema position
is an object. -/
lemma nodeOkAt_scalar {j : JsVal} (h : ∀ o, j ≠ .jobj o) (h2 : ∀ xs, j ≠ .jarr xs) :
    NodeOkAt j := by
  intro n hpos o hno
  cases hpos with
  | refl => exact absurd hno (h o)
  | arrElem hmem hsub => exact absurd rfl (h2 _)
  | propVal hget hmem hsub => exact absurd rfl (h _)
  | propArrElem hget hmem hsub => exact absurd rfl (h _)
  | itemsVal hget hsub => exact absurd rfl (h _)

/-- Soundness of the ensure pass: on any input all of whose reachable
object nodes carry only allowed keys, `ensureSchemaType` produces a value
all of whose reachable object nodes carry only allowed keys and a truthy
`type` (induction on a size bound). -/
lemma ensure_nodeOk : ∀ N : Nat, ∀ j : JsVal, sizeOf j ≤ N → KeysAllowedAt j →
    NodeOkAt (ensureSchemaType j) := by
  intro N
  induction N with
  | zero =>
      intro j hsz hka
      exfalso
      cases j <;> simp at hsz
  | succ N ih =>
      intro j hsz hka
      cases j with
      | jnull => exact nodeOkAt_scalar (by intro o h; cases h) (by intro xs h; cases h)
      | jbool b => exact nodeOkAt_scalar (by intro o h; cases h) (by intro xs h; cases h)
      | jnum m => exact nodeOkAt_scalar (by intro o h; cases h) (by intro xs h; cases h)
      | jstr s => exact nodeOkAt_scalar (by intro o h; cases h) (by intro xs h; cases h)
      | jarr xs =>
          rw [ensureSchemaType_arr]
          intro n hpos o hno
          cases hpos with
          | refl => simp at hno
          | arrElem hmem hsub =>
              rename_i x
              obtain ⟨x0, hx0, he⟩ := ensureList_mem hmem
              have hszx : sizeOf x0 ≤ N := by
                have h2 := List.sizeOf_lt_of_mem hx0
                simp only [JsVal.jarr.sizeOf_spec] at hsz
                omega
              have hkax : KeysAllowedAt x0 := fun n2 hp2 o3 hno3 =>
                hka n2 (SchemaPos.arrElem hx0 hp2) o3 hno3
              rw [he] at hsub
              exact ih x0 hszx hkax n hsub o hno
      | jobj fs =>
          rw [ensureSchemaType_obj]
          have hkeys0 : ∀ p ∈ ensureFields fs, p.1 ∈ ALLOWED_SCHEMA_FIELDS := by
            intro p hp
            obtain ⟨q, hq, hk⟩ := ensureFields_keys hp
            rw [hk]
            exact hka (.jobj fs) (SchemaPos.refl _) fs rfl q hq
          by_cases hty : otruthy (oget "type" fs) = true
          · rw [if_pos hty]
            refine ensure_obj_nodeOk N ih fs hsz hka (ensureFields fs) hkeys0 ?_ ?_ ?_
            · rw [oget_ensureFields_other fs "type" (by decide) (by decide)]
              exact hty
            · exact oget_ensureFields_props fs
            · exact oget_ensureFields_items fs
          · rw [if_neg hty]
            refine ensure_obj_nodeOk N ih fs hsz hka _ ?_ ?_ ?_ ?_
            · intro p hp
              rcases mem_oset hp with hp2 | hp2
              · exact hkeys0 p hp2
              · rw [hp2]
                simp [ALLOWED_SCHEMA_FIELDS]
            · rw [oget_oset_self]
              exact inferTypeStr_truthy fs
            · rw [oget_oset_ne _ _ _ _ (by decide)]
              exact oget_ensureFields_props fs
            · rw [oget_oset_ne _ _ _ _ (by decide)]
              exact oget_ensureFields_items fs

/-- C6: every object node reachable in schema position of a pipeline
output (`ensureSchemaType ∘ sanitizeSchema ∘ stripDollarSchema`) carries
only allowed keys and a truthy `type`; a node lacking `type` gets the
object/array/string/object inference; and the worked example. -/
theorem C6_schema_invariant :
    (∀ fuel s out, cleanToolSchema fuel s = .ok out → NodeOkAt out) ∧
    (∀ o, otruthy (oget "type" o) = false →
      ∃ o2, ensureSchemaType (.jobj o) = .jobj o2 ∧
        oget "type" o2 = some (.jstr (
          if otruthy (oget "properties" o) then "object"
          else if otruthy (oget "items" o) then "array"
          else if otruthy (oget "enum" o) then "string" else "object"))) ∧
    cleanToolSchema 10
        (.jobj [("properties", .jobj [("x", .jobj [("type", .jstr "string")])])]) =
      .ok (.jobj [("properties", .jobj [("x", .jobj [("type", .jstr "string")])]),
        ("type", .jstr "object")]) := by
  refine ⟨?_, ?_, ?_⟩
  · intro fuel s out h
    simp only [cleanToolSchema] at h
    obtain ⟨mid, hmid, hpure⟩ := except_bind_ok h
    have hout : out = ensureSchemaType mid := by
      simpa [pure, Except.pure] using hpure.symm
    have hka : KeysAllowedAt mid := (sanitize_keys fuel).1 _ _ hmid
    rw [hout]
    exact ensure_nodeOk (sizeOf mid) mid le_rfl hka
  · intro o hty
    refine ⟨oset (ensureFields o) "type" (.jstr (inferTypeStr o)), ?_, ?_⟩
    · rw [ensureSchemaType_obj, if_neg (by simp [hty])]
    · rw [oget_oset_self]
      simp [inferTypeStr]
  · rfl

/-- C6 witness: the worked example's output satisfies the node invariant
at its root, and enum-only inference yields `type: "string"`. -/
theorem C6_schema_invariant_witness :
    ((∀ p ∈ [("properties", JsVal.jobj [("x", JsVal.jobj [("type", JsVal.jstr "string")])]),
        ("type", JsVal.jstr "object")], p.1 ∈ ALLOWED_SCHEMA_FIELDS) ∧
      otruthy (oget "type"
        [("properties", JsVal.jobj [("x", JsVal.jobj [("type", JsVal.jstr "string")])]),
          ("type", JsVal.jstr "object")]) = true) ∧
    (∃ o2, ensureSchemaType (.jobj [("enum", JsVal.jarr [JsVal.jstr "a"])]) = .jobj o2 ∧
      oget "type" o2 = some (.jstr "string")) :=
  ⟨C6_schema_invariant.1 10
      (.jobj [("properties", .jobj [("x", .jobj [("type", .jstr "string")])])])
      (.jobj [("properties", .jobj [("x", .jobj [("type", .jstr "string")])]),
        ("type", .jstr "object")]) rfl _ (SchemaPos.refl _) _ rfl,
    C6_schema_invariant.2.1 [("enum", JsVal.jarr [JsVal.jstr "a"])] rfl⟩

/-- C7: the union-flattening step — a single objectish candidate replaces
the node (parent description reattached); with several, the first
declaring an enum or properties wins, else the first candidate; and
`\x7banyOf:[\x7btype:"string"\x7d]\x7d` normalizes to `\x7btype:"string"\x7d`. -/
theorem C7_union_flattening :
    (∀ o xs v, oget "anyOf" o = some (.jarr xs) →
      xs.filter isObjectish = [v] →
      flattenUnion o = .ok (mergeDescription v o)) ∧
    (∀ o xs v, otruthy (oget "anyOf" o) = false →
      oget "oneOf" o = some (.jarr xs) →
      xs.filter isObjectish = [v] →
      flattenUnion o = .ok (mergeDescription v o)) ∧
    (∀ o xs v0 v1 vs s, oget "anyOf" o = some (.jarr xs) →
      xs.filter isObjectish = v0 :: v1 :: vs →
      (v0 :: v1 :: vs).find? hasEnumOrProps = some s →
      flattenUnion o = .ok (mergeDescription s o)) ∧
    (∀ o xs v0 v1 vs, oget "anyOf" o = some (.jarr xs) →
      xs.filter isObjectish = v0 :: v1 :: vs →
      (v0 :: v1 :: vs).find? hasEnumOrProps = none →
      flattenUnion o = .ok (mergeDescription v0 o)) ∧
    cleanToolSchema 10 (.jobj [("anyOf", .jarr [.jobj [("type", .jstr "string")]])]) =
      .ok (.jobj [("type", .jstr "string")]) := by
  refine ⟨?_, ?_, ?_, ?_, ?_⟩
  · intro o xs v h1 h2
    simp [flattenUnion, h1, h2, otruthy, JsVal.truthy, -List.find?_filter]
  · intro o xs v h0 h1 h2
    simp [flattenUnion, h0, h1, h2,
      show otruthy (some (JsVal.jarr xs)) = true from rfl, -List.find?_filter]
  · intro o xs v0 v1 vs s h1 h2 h3
    simp [flattenUnion, h1, h2, h3, otruthy, JsVal.truthy, -List.find?_filter]
  · intro o xs v0 v1 vs h1 h2 h3
    simp [flattenUnion, h1, h2, h3, otruthy, JsVal.truthy, -List.find?_filter]
  · rfl

/-- C7 witness: single-candidate substitution with description reattach,
and the enum-bearing variant preferred among two. -/
theorem C7_union_flattening_witness :
    flattenUnion [("anyOf", JsVal.jarr [JsVal.jobj [("type", JsVal.jstr "string")]]),
        ("description", JsVal.jstr "d")] =
      .ok [("type", JsVal.jstr "string"), ("description", JsVal.jstr "d")] ∧
    flattenUnion [("anyOf", JsVal.jarr [JsVal.jobj [("type", JsVal.jstr "number")],
        JsVal.jobj [("enum", JsVal.jarr [JsVal.jstr "a"])]])] =
      .ok [("enum", JsVal.jarr [JsVal.jstr "a"])] :=
  ⟨C7_union_flattening.1
      [("anyOf", JsVal.jarr [JsVal.jobj [("type", JsVal.jstr "string")]]),
        ("description", JsVal.jstr "d")]
      [JsVal.jobj [("type", JsVal.jstr "string")]]
      (JsVal.jobj [("type", JsVal.jstr "string")]) rfl rfl,
    C7_union_flattening.2.2.1
      [("anyOf", JsVal.jarr [JsVal.jobj [("type", JsVal.jstr "number")],
        JsVal.jobj [("enum", JsVal.jarr [JsVal.jstr "a"])]])]
      [JsVal.jobj [("type", JsVal.jstr "number")],
        JsVal.jobj [("enum", JsVal.jarr [JsVal.jstr "a"])]]
      (JsVal.jobj [("type", JsVal.jstr "number")])
      (JsVal.jobj [("enum", JsVal.jarr [JsVal.jstr "a"])]) []
      (JsVal.jobj [("enum", JsVal.jarr [JsVal.jstr "a"])]) rfl rfl rfl⟩
